import Mathlib

/-!
# Enigma simulator (`enigma.c`): embedding and checked properties

The C program keeps its machine in globals: the three rotor offsets, the
plugboard table `pairings` and the function-static counter
`right_rotor_steps`.  Here they are the fields of `Machine`, passed explicitly.

Conventions of the embedding

* C `int` and `char` values are `Int`; `%` is C remainder (truncation towards
  zero), written `Int.tmod`.
* The step counter is a 32-bit `int`.  Its increment overflows at `INT_MAX`;
  the C standard leaves that undefined and the compiled program wraps to
  `INT_MIN` (two's complement), which is what `int_incr` does.
* A C string is the list of its characters before the terminating NUL; reading
  the position just after the last character yields the NUL, `0`.
* The wiring tables are `char[ALPHABET_SIZE + 1]`: 26 letters and the NUL.
  Reading a table outside its bounds is undefined in C; the embedded read
  returns `none` there, and every function that reads a table returns `Option`.
* `isalpha` and `toupper` are the C library functions in the "C" locale (the
  program never changes the locale).
-/

namespace Enigma

/-! ## Data model -/

/-- Characters of a Lean string as C character codes. -/
def c_str (s : String) : List Int := s.toList.map (fun ch => (ch.toNat : Int))

/-- `ALPHABET_SIZE`. -/
def ALPHABET_SIZE : Int := 26

/-- `NUM_ROTORS`. -/
def NUM_ROTORS : Nat := 3

/-- The global tables `rotors[NUM_ROTORS][ALPHABET_SIZE + 1]`, each row with its NUL. -/
def rotors (rotor : Fin 3) : List Int :=
  match rotor with
  | 0 => c_str "EKMFLGDQVZNTOWYHXUSPAIBRCJ" ++ [0]
  | 1 => c_str "AJDKSIRUXBLHWTMCQGZNPYFVOE" ++ [0]
  | 2 => c_str "BDFHJLCPRTXVZNYEIWGAKMUSQO" ++ [0]

/-- The global table `reflector[ALPHABET_SIZE + 1]`, with its NUL. -/
def reflector : List Int := c_str "YRUHQSLDPXNGOKMIEBFZCWVJAT" ++ [0]

/-- The mutable globals: `rotor_offsets`, `pairings` and the static
`right_rotor_steps` of `spin_rotors`. -/
structure Machine where
  rotor_offsets : Fin 3 → Int
  pairings : Fin 26 → Int
  right_rotor_steps : Int

/-- State at program start: all globals zero-initialised. -/
def Machine.init : Machine :=
  { rotor_offsets := fun _ => 0, pairings := fun _ => 0, right_rotor_steps := 0 }

/-- Read `table[i]` of a C array; outside the array the read is undefined. -/
def read_at (table : List Int) (i : Int) : Option Int :=
  if 0 ≤ i then table.get? i.toNat else none

/-- C library `isalpha` in the "C" locale. -/
def isalpha (c : Int) : Bool :=
  (decide (65 ≤ c) && decide (c ≤ 90)) || (decide (97 ≤ c) && decide (c ≤ 122))

/-- C library `toupper` in the "C" locale. -/
def toupper (c : Int) : Int :=
  if 97 ≤ c ∧ c ≤ 122 then c - 32 else c

/-! ## Alphabet codec -/

/-- `int char_to_index(char c)`: `toupper(c) - 'A'`. -/
def char_to_index (c : Int) : Int := toupper c - 65

/-- `char index_to_char(int index)`: `'A' + (index % ALPHABET_SIZE)`. -/
def index_to_char (index : Int) : Int := 65 + Int.tmod index ALPHABET_SIZE

/-! ## Rotor bank and reflector -/

/-- `int index_inverse(int c, int rotor)`: first `i < 26` with
`rotors[rotor][i] == c + 'A'`, or `-1`. -/
def index_inverse (c : Int) (rotor : Fin 3) : Int :=
  match (List.range 26).find? (fun i => (rotors rotor).getD i 0 == c + 65) with
  | some i => (i : Int)
  | none => -1

/-- `int rotor_r_to_l(int input, int rotor)`. -/
def rotor_r_to_l (m : Machine) (input : Int) (rotor : Fin 3) : Option Int := do
  let idx := Int.tmod (input + m.rotor_offsets rotor) ALPHABET_SIZE
  let ch ← read_at (rotors rotor) idx
  let mapped := ch - 65
  pure (Int.tmod (mapped - m.rotor_offsets rotor + ALPHABET_SIZE) ALPHABET_SIZE)

/-- `int rotor_l_to_r(int input, int rotor)`. -/
def rotor_l_to_r (m : Machine) (input : Int) (rotor : Fin 3) : Int :=
  let idx := Int.tmod (input + m.rotor_offsets rotor) ALPHABET_SIZE
  let inverse := index_inverse idx rotor
  Int.tmod (inverse - m.rotor_offsets rotor + ALPHABET_SIZE) ALPHABET_SIZE

/-- `int reflect(int input)`: `reflector[input] - 'A'`. -/
def reflect (input : Int) : Option Int :=
  (read_at reflector input).map (fun ch => ch - 65)

/-! ## Plugboard -/

/-- The assignment `pairings[i] = v`.  Every call site has `0 ≤ i < 26`,
from a loop bound or an explicit range check in the source. -/
def store (p : Fin 26 → Int) (i : Int) (v : Int) : Fin 26 → Int :=
  fun k => if (k.val : Int) = i then v else p k

/-- Body of the second loop of `initialize_plugboard` at position `i`. -/
def plug_entry (pairs : List Int) (i : Nat) (p : Fin 26 → Int) : Fin 26 → Int :=
  if pairs.getD (i + 1) 0 = 32 ∧ i + 2 < pairs.length then
    let first := toupper (pairs.getD i 0) - 65
    let second := toupper (pairs.getD (i + 2) 0) - 65
    if first ≥ 0 ∧ first < ALPHABET_SIZE ∧ second ≥ 0 ∧ second < ALPHABET_SIZE then
      store (store p first (second - first)) second (first - second)
    else p
  else p

/-- The loop `for (int i = ...; i < strlen(pairs); i += 3)` of
`initialize_plugboard`, started at `i`, with a bound on the iterations. -/
def plug_loop (pairs : List Int) : Nat → Nat → (Fin 26 → Int) → (Fin 26 → Int)
  | 0, _, p => p
  | fuel + 1, i, p =>
    if i < pairs.length then plug_loop pairs fuel (i + 3) (plug_entry pairs i p) else p

/-- `void initialize_plugboard(const char *pairs)`: clear the table, then run
the stride-3 loop (`strlen(pairs)` iterations are more than it can take). -/
def initialize_plugboard (m : Machine) (pairs : List Int) : Machine :=
  let cleared := (List.range 26).foldl (fun p (i : Nat) => store p (i : Int) 0) m.pairings
  { m with pairings := plug_loop pairs pairs.length 0 cleared }

/-- `int plug_swap(int input)`: `input + pairings[input]`. -/
def plug_swap (m : Machine) (input : Int) : Option Int :=
  if h : 0 ≤ input ∧ input < 26 then
    some (input + m.pairings ⟨input.toNat, by omega⟩)
  else none

/-! ## Stepping -/

/-- Largest value of the 32-bit `int`. -/
def INT_MAX : Int := 2147483647

/-- Smallest value of the 32-bit `int`. -/
def INT_MIN : Int := -2147483648

/-- The increment `x++` of a 32-bit `int`: one more, and from `INT_MAX` the
wrap to `INT_MIN`.  On the values of an `int` this is
`(x + 1 + 2^31) % 2^32 - 2^31` (`int_incr_wrap`). -/
def int_incr (x : Int) : Int := if x = INT_MAX then INT_MIN else x + 1

/-- `void spin_rotors()`; `right_rotor_steps++` is the 32-bit increment. -/
def spin_rotors (m : Machine) : Machine :=
  let offs := Function.update m.rotor_offsets 0
    (Int.tmod (m.rotor_offsets 0 + 1) ALPHABET_SIZE)
  let steps := int_incr m.right_rotor_steps
  if Int.tmod steps ALPHABET_SIZE = 0 then
    { m with
      rotor_offsets := Function.update offs 1 (Int.tmod (offs 1 + 2) ALPHABET_SIZE)
      right_rotor_steps := steps }
  else
    { m with rotor_offsets := offs, right_rotor_steps := steps }

/-- `void set_rotor_positions(char left, char middle, char right)`. -/
def set_rotor_positions (m : Machine) (left middle right : Int) : Machine :=
  let o2 := Function.update m.rotor_offsets 2 (char_to_index left)
  let o1 := Function.update o2 1 (char_to_index middle)
  { m with rotor_offsets := Function.update o1 0 (char_to_index right) }

/-- The three characters `print_rotor_status` prints, left, middle, right. -/
def print_rotor_status (m : Machine) : Int × Int × Int :=
  (index_to_char (m.rotor_offsets 2), index_to_char (m.rotor_offsets 1),
   index_to_char (m.rotor_offsets 0))

/-! ## Cipher engine -/

/-- `char encrypt_char(char c)`: the returned character and the machine left behind. -/
def encrypt_char (m : Machine) (c : Int) : Option (Int × Machine) :=
  if !isalpha c then some (c, m) else
  let c := toupper c
  let m := spin_rotors m
  do
    let res := char_to_index c
    let res ← plug_swap m res
    let res ← rotor_r_to_l m res 0
    let res ← rotor_r_to_l m res 1
    let res ← rotor_r_to_l m res 2
    let res ← reflect res
    let res := rotor_l_to_r m res 2
    let res := rotor_l_to_r m res 1
    let res := rotor_l_to_r m res 0
    let res ← plug_swap m res
    pure (index_to_char res, m)

/-- `void encrypt_message(const char *input, char *output)`.  The terminal is
the list `replies`: one entry per space prompt, the character typed as the
choice and the line `fgets` would deliver if the choice is `y` or `Y`.  A
prompt with no reply left reads an uninitialised `choice`: no result. -/
def encrypt_message (m : Machine) (input : List Int) (replies : List (Int × List Int)) :
    Option (List Int × Machine) :=
  match input with
  | [] => some ([], m)
  | c :: rest =>
    if c = 32 then
      match replies with
      | [] => none
      | (choice, line) :: more =>
        let m1 := if choice = 121 ∨ choice = 89 then initialize_plugboard m line else m
        (encrypt_message m1 rest more).map (fun r => (32 :: r.1, r.2))
    else
      (encrypt_char m c).bind (fun r =>
        (encrypt_message r.2 rest replies).map (fun q => (r.1 :: q.1, q.2)))

/-! ## Notions used by the statements -/

/-- The index map `encrypt_char` applies after stepping: plugboard, the three
rotors right to left, reflector, the three rotors left to right, plugboard. -/
def signal_path (m : Machine) (x : Int) : Option Int := do
  let res ← plug_swap m x
  let res ← rotor_r_to_l m res 0
  let res ← rotor_r_to_l m res 1
  let res ← rotor_r_to_l m res 2
  let res ← reflect res
  let res := rotor_l_to_r m res 2
  let res := rotor_l_to_r m res 1
  let res := rotor_l_to_r m res 0
  plug_swap m res

/-- The plugboard table is symmetric: `plug_swap(plug_swap(a)) == a` for every
index `a` in [0,26). -/
def plug_symmetric (m : Machine) : Prop :=
  ∀ a : Int, 0 ≤ a → a < 26 → (plug_swap m a).bind (plug_swap m) = some a

/-- All three rotor offsets lie in [0,26). -/
def offsets_in_range (m : Machine) : Prop :=
  ∀ r : Fin 3, 0 ≤ m.rotor_offsets r ∧ m.rotor_offsets r < 26

instance (m : Machine) : Decidable (offsets_in_range m) :=
  inferInstanceAs (Decidable (∀ r : Fin 3, 0 ≤ m.rotor_offsets r ∧ m.rotor_offsets r < 26))

/-- A machine with the given right, middle and left offsets, step counter and
the empty plugboard. -/
def machine_at (right middle left steps : Int) : Machine :=
  { rotor_offsets := fun r => match r with
      | 0 => right
      | 1 => middle
      | 2 => left
    pairings := fun _ => 0
    right_rotor_steps := steps }

/-- Both machines turn the middle rotor at the same letters of a message of
length `n`. -/
def in_step (a b : Machine) (n : Nat) : Prop :=
  ∀ k : Nat, k < n →
    (Int.tmod (int_incr^[k + 1] a.right_rotor_steps) 26 = 0 ↔
      Int.tmod (int_incr^[k + 1] b.right_rotor_steps) 26 = 0)

/-- The calls `encrypt_char(c)` for the characters `c` of a list, one after the
other: the characters returned and the machine left behind. -/
def encrypt_chars (m : Machine) : List Int → Option (List Int × Machine)
  | [] => some ([], m)
  | c :: cs =>
    (encrypt_char m c).bind (fun r =>
      (encrypt_chars r.2 cs).map (fun q => (r.1 :: q.1, q.2)))

/-! ## The plugboard configuration in the words of the specification -/

/-- The character positions 0, 3, 6, ... of the text. -/
def spec_positions (text : List Int) : List Nat :=
  (List.range text.length).filter (fun i => i % 3 = 0)

/-- The entry that starts at position `i` is applied: its second character is a
space, its third character lies inside the text, and its first and third
characters are letters. -/
def spec_entry_applies (text : List Int) (i : Nat) : Bool :=
  decide (text.getD (i + 1) 0 = 32) && decide (i + 2 < text.length) &&
    isalpha (text.getD i 0) && isalpha (text.getD (i + 2) 0)

/-- The applied entries of the text, in order, each as the pair of the indices
of its first and third character. -/
def spec_entries (text : List Int) : List (Int × Int) :=
  ((spec_positions text).filter (spec_entry_applies text)).map
    (fun i => (char_to_index (text.getD i 0), char_to_index (text.getD (i + 2) 0)))

/-- A mapping updated by one pair: each of the two letters gets the signed
offset that leads to the other. -/
def spec_update (p : Fin 26 → Int) (e : Int × Int) : Fin 26 → Int :=
  store (store p e.1 (e.2 - e.1)) e.2 (e.1 - e.2)

/-- The mapping the specification describes for a text: the all-zero mapping
updated, in order, by the applied entries. -/
def plugboard_spec (text : List Int) : Fin 26 → Int :=
  (spec_entries text).foldl spec_update (fun _ => 0)

/-- No letter occurs in two applied entries of the text. -/
def entries_disjoint (text : List Int) : Prop :=
  (spec_entries text).Pairwise
    (fun e f => e.1 ≠ f.1 ∧ e.1 ≠ f.2 ∧ e.2 ≠ f.1 ∧ e.2 ≠ f.2)

/-- Every index of the table has a partner: the offset stored for an index
leads to an index of the table whose offset leads back. -/
def table_symmetric (p : Fin 26 → Int) : Prop :=
  ∀ k : Fin 26, ∃ j : Fin 26,
    (j.val : Int) = (k.val : Int) + p k ∧ (k.val : Int) = (j.val : Int) + p j

/-- The plugboard sends every index of [0,26) to an index of [0,26). -/
def plug_in_range (m : Machine) : Prop :=
  ∀ a : Int, 0 ≤ a → a < 26 → ∃ b : Int, plug_swap m a = some b ∧ 0 ≤ b ∧ b < 26

/-- Every offset stored in the table leads to an index of the table. -/
def table_in_range (p : Fin 26 → Int) : Prop :=
  ∀ k : Fin 26, 0 ≤ (k.val : Int) + p k ∧ (k.val : Int) + p k < 26

/-! # Theorems -/

/-! ## Arithmetic and table facts -/

theorem tmod_alphabet (a : Int) (h : 0 ≤ a) : Int.tmod a ALPHABET_SIZE = a % 26 := by
  unfold ALPHABET_SIZE
  exact Int.tmod_eq_emod h (by decide)

set_option maxRecDepth 100000 in
theorem rotors_wiring_fin : ∀ r : Fin 3, ∀ i : Fin 26, ∃ w : Fin 26,
    read_at (rotors r) (i.val : Int) = some ((w.val : Int) + 65) ∧
    index_inverse (w.val : Int) r = (i.val : Int) := by
  decide

set_option maxRecDepth 100000 in
theorem rotors_inverse_fin : ∀ r : Fin 3, ∀ c : Fin 26, ∃ i : Fin 26,
    index_inverse (c.val : Int) r = (i.val : Int) ∧
    read_at (rotors r) (i.val : Int) = some ((c.val : Int) + 65) := by
  decide

theorem rotors_wiring (r : Fin 3) (i : Int) (h : 0 ≤ i ∧ i < 26) :
    ∃ w : Int, read_at (rotors r) i = some (w + 65) ∧ 0 ≤ w ∧ w < 26 ∧
      index_inverse w r = i := by
  obtain ⟨n, rfl⟩ := Int.eq_ofNat_of_zero_le h.1
  have hn : n < 26 := by omega
  obtain ⟨w, h1, h2⟩ := rotors_wiring_fin r ⟨n, hn⟩
  exact ⟨(w.val : Int), h1, by omega, by omega, h2⟩

theorem rotors_inverse (r : Fin 3) (c : Int) (h : 0 ≤ c ∧ c < 26) :
    0 ≤ index_inverse c r ∧ index_inverse c r < 26 ∧
      read_at (rotors r) (index_inverse c r) = some (c + 65) := by
  obtain ⟨n, rfl⟩ := Int.eq_ofNat_of_zero_le h.1
  have hn : n < 26 := by omega
  obtain ⟨i, h1, h2⟩ := rotors_inverse_fin r ⟨n, hn⟩
  simp only at h1 h2
  rw [h1]
  exact ⟨by omega, by omega, h2⟩

/-- Shape of `rotor_r_to_l` on valid input: the wired letter, shifted back. -/
theorem rotor_r_to_l_spec (m : Machine) (rotor : Fin 3) (x : Int)
    (ho : 0 ≤ m.rotor_offsets rotor ∧ m.rotor_offsets rotor < 26) (hx : 0 ≤ x ∧ x < 26) :
    ∃ w : Int, 0 ≤ w ∧ w < 26 ∧
      index_inverse w rotor = (x + m.rotor_offsets rotor) % 26 ∧
      rotor_r_to_l m x rotor = some ((w - m.rotor_offsets rotor + 26) % 26) := by
  have hidx : Int.tmod (x + m.rotor_offsets rotor) ALPHABET_SIZE
      = (x + m.rotor_offsets rotor) % 26 := tmod_alphabet _ (by omega)
  obtain ⟨w, hw, hw0, hw1, hinv⟩ :=
    rotors_wiring rotor ((x + m.rotor_offsets rotor) % 26) (by omega)
  refine ⟨w, hw0, hw1, hinv, ?_⟩
  have hout : Int.tmod (w - m.rotor_offsets rotor + ALPHABET_SIZE) ALPHABET_SIZE
      = (w - m.rotor_offsets rotor + 26) % 26 := by
    have : w - m.rotor_offsets rotor + ALPHABET_SIZE = w - m.rotor_offsets rotor + 26 := rfl
    rw [tmod_alphabet _ (by rw [this]; omega), this]
  simp only [rotor_r_to_l, hidx, hw, Option.bind_eq_bind, Option.some_bind, Option.pure_def,
    Int.add_sub_cancel, hout]

/-- Shape of `rotor_l_to_r` on valid input. -/
theorem rotor_l_to_r_spec (m : Machine) (rotor : Fin 3) (x : Int)
    (ho : 0 ≤ m.rotor_offsets rotor ∧ m.rotor_offsets rotor < 26) (hx : 0 ≤ x ∧ x < 26) :
    rotor_l_to_r m x rotor
      = (index_inverse ((x + m.rotor_offsets rotor) % 26) rotor
          - m.rotor_offsets rotor + 26) % 26 := by
  have hidx : Int.tmod (x + m.rotor_offsets rotor) ALPHABET_SIZE
      = (x + m.rotor_offsets rotor) % 26 := tmod_alphabet _ (by omega)
  have hinv := rotors_inverse rotor ((x + m.rotor_offsets rotor) % 26) (by omega)
  have e : ∀ a : Int, a + ALPHABET_SIZE = a + 26 := fun _ => rfl
  simp only [rotor_l_to_r, hidx]
  rw [tmod_alphabet _ (by rw [e]; omega), e]

theorem rotor_l_to_r_range (m : Machine) (rotor : Fin 3) (x : Int)
    (ho : 0 ≤ m.rotor_offsets rotor ∧ m.rotor_offsets rotor < 26) (hx : 0 ≤ x ∧ x < 26) :
    0 ≤ rotor_l_to_r m x rotor ∧ rotor_l_to_r m x rotor < 26 := by
  rw [rotor_l_to_r_spec m rotor x ho hx]
  omega

/-- Forward then backward through one rotor. -/
theorem rotor_forward_backward (m : Machine) (rotor : Fin 3) (x : Int)
    (ho : 0 ≤ m.rotor_offsets rotor ∧ m.rotor_offsets rotor < 26) (hx : 0 ≤ x ∧ x < 26) :
    ∃ y : Int, rotor_r_to_l m x rotor = some y ∧ 0 ≤ y ∧ y < 26 ∧
      rotor_l_to_r m y rotor = x := by
  obtain ⟨w, hw0, hw1, hinv, hy⟩ := rotor_r_to_l_spec m rotor x ho hx
  refine ⟨_, hy, by omega, by omega, ?_⟩
  rw [rotor_l_to_r_spec m rotor _ ho (by omega)]
  have : ((w - m.rotor_offsets rotor + 26) % 26 + m.rotor_offsets rotor) % 26 = w := by omega
  rw [this, hinv]
  omega

/-- Backward then forward through one rotor. -/
theorem rotor_backward_forward (m : Machine) (rotor : Fin 3) (x : Int)
    (ho : 0 ≤ m.rotor_offsets rotor ∧ m.rotor_offsets rotor < 26) (hx : 0 ≤ x ∧ x < 26) :
    rotor_r_to_l m (rotor_l_to_r m x rotor) rotor = some x := by
  have hr := rotor_l_to_r_range m rotor x ho hx
  have hs := rotor_l_to_r_spec m rotor x ho hx
  have hinv := rotors_inverse rotor ((x + m.rotor_offsets rotor) % 26) (by omega)
  have hidx : Int.tmod (rotor_l_to_r m x rotor + m.rotor_offsets rotor) ALPHABET_SIZE
      = index_inverse ((x + m.rotor_offsets rotor) % 26) rotor := by
    rw [tmod_alphabet _ (by omega), hs]
    omega
  have e : ∀ a : Int, a + ALPHABET_SIZE = a + 26 := fun _ => rfl
  simp only [rotor_r_to_l, hidx, hinv.2.2, Option.bind_eq_bind, Option.some_bind,
    Option.pure_def, Int.add_sub_cancel]
  rw [tmod_alphabet _ (by rw [e]; omega), e]
  congr 1
  omega

/-- C1. Rotor traversal round trip: for every rotor, every offset in [0,26) and
every index x in [0,26), going right-to-left and then left-to-right through the
rotor returns x, and so does going left-to-right and then right-to-left, both
at the same offset. -/
theorem rotor_round_trip (m : Machine) (rotor : Fin 3) (x : Int)
    (ho : 0 ≤ m.rotor_offsets rotor ∧ m.rotor_offsets rotor < 26) (hx : 0 ≤ x ∧ x < 26) :
    (rotor_r_to_l m x rotor).map (fun y => rotor_l_to_r m y rotor) = some x ∧
    rotor_r_to_l m (rotor_l_to_r m x rotor) rotor = some x := by
  obtain ⟨y, hy, _, _, hback⟩ := rotor_forward_backward m rotor x ho hx
  exact ⟨by rw [hy, Option.map_some', hback], rotor_backward_forward m rotor x ho hx⟩

/-- C1 at a concrete input: the middle rotor at offset 7, index 5. -/
theorem rotor_round_trip_witness :
    (rotor_r_to_l (machine_at 3 7 11 0) 5 1).map
        (fun y => rotor_l_to_r (machine_at 3 7 11 0) y 1) = some 5 ∧
      rotor_r_to_l (machine_at 3 7 11 0) (rotor_l_to_r (machine_at 3 7 11 0) 5 1) 1 = some 5 :=
  rotor_round_trip (machine_at 3 7 11 0) 1 5 (by decide) (by decide)

theorem encrypt_char_alpha (m : Machine) (c : Int) (hc : isalpha c = true) :
    encrypt_char m c = (signal_path (spin_rotors m) (char_to_index (toupper c))).map
      (fun r => (index_to_char r, spin_rotors m)) := by
  simp only [encrypt_char, hc, signal_path, Bool.not_true, Bool.false_eq_true, if_false,
    Option.bind_eq_bind, Option.pure_def]
  cases plug_swap (spin_rotors m) (char_to_index (toupper c)) with
  | none => rfl
  | some a =>
    simp only [Option.some_bind]
    cases rotor_r_to_l (spin_rotors m) a 0 with
    | none => rfl
    | some b =>
      simp only [Option.some_bind]
      cases rotor_r_to_l (spin_rotors m) b 1 with
      | none => rfl
      | some c1 =>
        simp only [Option.some_bind]
        cases rotor_r_to_l (spin_rotors m) c1 2 with
        | none => rfl
        | some d =>
          simp only [Option.some_bind]
          cases reflect d with
          | none => rfl
          | some e =>
            simp only [Option.some_bind]
            cases plug_swap (spin_rotors m)
              (rotor_l_to_r (spin_rotors m) (rotor_l_to_r (spin_rotors m)
                (rotor_l_to_r (spin_rotors m) e 2) 1) 0) <;> rfl

set_option maxRecDepth 100000 in
theorem reflector_pairs_fin : ∀ i : Fin 26, ∃ j : Fin 26,
    reflect (i.val : Int) = some (j.val : Int) ∧ reflect (j.val : Int) = some (i.val : Int) := by
  decide

theorem reflect_involution (x : Int) (hx : 0 ≤ x ∧ x < 26) :
    ∃ y : Int, reflect x = some y ∧ 0 ≤ y ∧ y < 26 ∧ reflect y = some x := by
  obtain ⟨n, rfl⟩ := Int.eq_ofNat_of_zero_le hx.1
  have hn : n < 26 := by omega
  obtain ⟨j, h1, h2⟩ := reflector_pairs_fin ⟨n, hn⟩
  exact ⟨(j.val : Int), h1, by omega, by omega, h2⟩

theorem plug_swap_some (m : Machine) (a b : Int) (h : plug_swap m a = some b) :
    0 ≤ a ∧ a < 26 := by
  unfold plug_swap at h
  split at h
  · assumption
  · cases h

theorem plug_symmetric_swap (m : Machine) (hp : plug_symmetric m) (a : Int)
    (ha : 0 ≤ a ∧ a < 26) :
    ∃ b : Int, plug_swap m a = some b ∧ 0 ≤ b ∧ b < 26 ∧ plug_swap m b = some a := by
  have h := hp a ha.1 ha.2
  cases hb : plug_swap m a with
  | none => rw [hb] at h; cases h
  | some b =>
    rw [hb, Option.some_bind] at h
    exact ⟨b, rfl, (plug_swap_some m b a h).1, (plug_swap_some m b a h).2, h⟩

/-- At fixed offsets and a symmetric plugboard the signal path is an involution
of [0,26). -/
theorem signal_path_involution (m : Machine) (ho : offsets_in_range m)
    (hp : plug_symmetric m) (x : Int) (hx : 0 ≤ x ∧ x < 26) :
    ∃ y : Int, signal_path m x = some y ∧ 0 ≤ y ∧ y < 26 ∧ signal_path m y = some x := by
  obtain ⟨p, hp1, hp0, hp26, hpb⟩ := plug_symmetric_swap m hp x hx
  obtain ⟨a, ha, ha0, ha26, hab⟩ := rotor_forward_backward m 0 p (ho 0) ⟨hp0, hp26⟩
  obtain ⟨b, hb, hb0, hb26, hbb⟩ := rotor_forward_backward m 1 a (ho 1) ⟨ha0, ha26⟩
  obtain ⟨c, hc, hc0, hc26, hcb⟩ := rotor_forward_backward m 2 b (ho 2) ⟨hb0, hb26⟩
  obtain ⟨u, hu, hu0, hu26, hub⟩ := reflect_involution c ⟨hc0, hc26⟩
  have r2 := rotor_l_to_r_range m 2 u (ho 2) ⟨hu0, hu26⟩
  have r1 := rotor_l_to_r_range m 1 _ (ho 1) r2
  have r0 := rotor_l_to_r_range m 0 _ (ho 0) r1
  obtain ⟨y, hy, hy0, hy26, hyb⟩ := plug_symmetric_swap m hp _ r0
  refine ⟨y, ?_, hy0, hy26, ?_⟩
  · simp only [signal_path, hp1, ha, hb, hc, hu, hy, Option.bind_eq_bind, Option.some_bind]
  · simp only [signal_path, hyb, Option.bind_eq_bind, Option.some_bind,
      rotor_backward_forward m 0 _ (ho 0) r1, rotor_backward_forward m 1 _ (ho 1) r2,
      rotor_backward_forward m 2 u (ho 2) ⟨hu0, hu26⟩, hub, hcb, hbb, hab, hpb]

theorem isalpha_iff (c : Int) :
    isalpha c = true ↔ (65 ≤ c ∧ c ≤ 90) ∨ (97 ≤ c ∧ c ≤ 122) := by
  simp [isalpha]

theorem letter_index (c : Int) (hc : isalpha c = true) :
    (0 ≤ char_to_index (toupper c) ∧ char_to_index (toupper c) < 26) ∧
      index_to_char (char_to_index (toupper c)) = toupper c := by
  rw [isalpha_iff] at hc
  have hu : 65 ≤ toupper c ∧ toupper c ≤ 90 := by
    unfold toupper
    split <;> omega
  have huu : toupper (toupper c) = toupper c := by
    generalize toupper c = u at hu
    unfold toupper
    split <;> omega
  have e : char_to_index (toupper c) = toupper c - 65 := by
    unfold char_to_index
    rw [huu]
  rw [e]
  refine ⟨by omega, ?_⟩
  unfold index_to_char
  rw [tmod_alphabet _ (by omega)]
  omega

theorem index_letter (y : Int) (hy : 0 ≤ y ∧ y < 26) :
    index_to_char y = 65 + y ∧ isalpha (index_to_char y) = true ∧
      toupper (index_to_char y) = index_to_char y ∧
      char_to_index (toupper (index_to_char y)) = y := by
  have e : index_to_char y = 65 + y := by
    unfold index_to_char
    rw [tmod_alphabet _ hy.1]
    omega
  have hup : toupper (65 + y) = 65 + y := by
    unfold toupper
    split <;> omega
  refine ⟨e, ?_, ?_, ?_⟩
  · rw [e, isalpha_iff]; omega
  · rw [e, hup]
  · rw [e]; unfold char_to_index; rw [hup]; omega

theorem spin_rotors_pairings (m : Machine) : (spin_rotors m).pairings = m.pairings := by
  unfold spin_rotors
  dsimp only
  split <;> rfl

theorem int_incr_wrap (x : Int) (h : INT_MIN ≤ x ∧ x ≤ INT_MAX) :
    int_incr x = (x + 1 + 2147483648) % 4294967296 - 2147483648 := by
  unfold int_incr INT_MAX INT_MIN at *
  split <;> omega

theorem int_incr_below (x : Int) (h : x < 2147483647) : int_incr x = x + 1 := by
  unfold int_incr INT_MAX
  rw [if_neg (by omega)]

theorem turnover_iff (x : Int) : Int.tmod x 26 = 0 ↔ x % 26 = 0 := by
  rw [← Int.dvd_iff_tmod_eq_zero, Int.dvd_iff_emod_eq_zero]

/-- A counter whose successor is no multiple of 26 does not turn the middle
rotor at its next increment, wrapped or not. -/
theorem int_incr_quiet (x : Int) (h : Int.tmod (x + 1) 26 ≠ 0) :
    Int.tmod (int_incr x) 26 ≠ 0 := by
  rw [Ne, turnover_iff] at h ⊢
  unfold int_incr INT_MAX INT_MIN
  split <;> omega

theorem int_incr_quiet_twice (x : Int) (h : Int.tmod (x + 2) 26 ≠ 0) :
    Int.tmod (int_incr (int_incr x)) 26 ≠ 0 := by
  rw [Ne, turnover_iff] at h ⊢
  unfold int_incr INT_MAX INT_MIN
  split <;> split <;> omega

theorem int_incr_iterate (x : Int) (k : Nat) (h : x + k ≤ 2147483647) :
    int_incr^[k] x = x + k := by
  induction k with
  | zero => simp
  | succ k ih =>
    have hk : x + (k : Int) < 2147483647 := by push_cast at h; omega
    rw [Function.iterate_succ_apply', ih (by omega), int_incr_below _ hk]
    push_cast
    omega

theorem spin_rotors_steps (m : Machine) :
    (spin_rotors m).right_rotor_steps = int_incr m.right_rotor_steps := by
  unfold spin_rotors
  dsimp only
  split <;> rfl

theorem spin_rotors_quiet (m : Machine)
    (h : Int.tmod (int_incr m.right_rotor_steps) 26 ≠ 0) :
    (spin_rotors m).rotor_offsets
      = Function.update m.rotor_offsets 0 (Int.tmod (m.rotor_offsets 0 + 1) 26) := by
  unfold spin_rotors ALPHABET_SIZE
  dsimp only
  rw [if_neg h]

theorem spin_rotors_turnover (m : Machine)
    (h : Int.tmod (int_incr m.right_rotor_steps) 26 = 0) :
    (spin_rotors m).rotor_offsets
      = Function.update
          (Function.update m.rotor_offsets 0 (Int.tmod (m.rotor_offsets 0 + 1) 26))
          1 (Int.tmod (m.rotor_offsets 1 + 2) 26) := by
  unfold spin_rotors ALPHABET_SIZE
  dsimp only
  rw [if_pos h]
  rfl

theorem spin_rotors_in_range (m : Machine) (ho : offsets_in_range m) :
    offsets_in_range (spin_rotors m) := by
  have t : ∀ a : Int, 0 ≤ a → 0 ≤ Int.tmod a 26 ∧ Int.tmod a 26 < 26 := by
    intro a ha
    rw [Int.tmod_eq_emod ha (by decide)]
    omega
  have h0 := ho 0
  have h1 := ho 1
  have h2 := ho 2
  intro r
  by_cases h : Int.tmod (int_incr m.right_rotor_steps) 26 = 0
  · rw [spin_rotors_turnover m h]
    fin_cases r
    · exact t _ (by omega)
    · exact t _ (by omega)
    · exact h2
  · rw [spin_rotors_quiet m h]
    fin_cases r
    · exact t _ (by omega)
    · exact h1
    · exact h2

theorem plug_swap_congr (m n : Machine) (h : m.pairings = n.pairings) :
    plug_swap m = plug_swap n := by
  funext x
  unfold plug_swap
  rw [h]

theorem plug_symmetric_congr (m n : Machine) (h : m.pairings = n.pairings)
    (hp : plug_symmetric m) : plug_symmetric n := by
  intro a h0 h26
  rw [← plug_swap_congr m n h]
  exact hp a h0 h26

theorem signal_path_congr (m n : Machine) (ho : m.rotor_offsets = n.rotor_offsets)
    (hp : m.pairings = n.pairings) : signal_path m = signal_path n := by
  funext x
  unfold signal_path rotor_r_to_l rotor_l_to_r
  rw [plug_swap_congr m n hp, ho]

theorem plug_symmetric_of_empty (m : Machine) (h : m.pairings = fun _ => 0) :
    plug_symmetric m := by
  intro a h0 h26
  simp [plug_swap, h, h0, h26]

theorem encrypt_char_letter (m : Machine) (c : Int) (ho : offsets_in_range m)
    (hp : plug_symmetric m) (hc : isalpha c = true) :
    ∃ y : Int, (0 ≤ y ∧ y < 26) ∧
      encrypt_char m c = some (index_to_char y, spin_rotors m) ∧
      signal_path (spin_rotors m) y = some (char_to_index (toupper c)) := by
  obtain ⟨hx, _⟩ := letter_index c hc
  obtain ⟨y, hy, hy0, hy26, hyb⟩ :=
    signal_path_involution (spin_rotors m) (spin_rotors_in_range m ho)
      (plug_symmetric_congr m _ (spin_rotors_pairings m).symm hp) _ hx
  refine ⟨y, ⟨hy0, hy26⟩, ?_, hyb⟩
  rw [encrypt_char_alpha m c hc, hy]
  rfl

theorem encrypt_char_of_path (m : Machine) (d x : Int) (hd : isalpha d = true)
    (h : signal_path (spin_rotors m) (char_to_index (toupper d)) = some x) :
    encrypt_char m d = some (index_to_char x, spin_rotors m) := by
  rw [encrypt_char_alpha m d hd, h]
  rfl

/-- C2 (amended). Character reciprocity: offsets in [0,26), a symmetric
plugboard, a letter c, and a step counter s for which neither s+1 nor s+2 is a
multiple of 26 (neither call turns the middle rotor). Then encrypt_char(c)
returns some d, and after the offsets are reset to their pre-call values, with
plugboard and counter as the first call left them, encrypt_char(d) returns the
upper-cased c. -/
theorem encrypt_char_reciprocal (m : Machine) (c : Int) (ho : offsets_in_range m)
    (hp : plug_symmetric m) (hc : isalpha c = true)
    (h1 : Int.tmod (m.right_rotor_steps + 1) 26 ≠ 0)
    (h2 : Int.tmod (m.right_rotor_steps + 2) 26 ≠ 0) :
    ∃ d m1, encrypt_char m c = some (d, m1) ∧
      ∃ m2, encrypt_char { m1 with rotor_offsets := m.rotor_offsets } d
        = some (toupper c, m2) := by
  obtain ⟨y, hy, henc, hback⟩ := encrypt_char_letter m c ho hp hc
  obtain ⟨_, hdalpha, _, hdidx⟩ := index_letter y hy
  refine ⟨index_to_char y, spin_rotors m, henc,
    spin_rotors { spin_rotors m with rotor_offsets := m.rotor_offsets }, ?_⟩
  have hsteps : Int.tmod (int_incr
      ({ spin_rotors m with rotor_offsets := m.rotor_offsets } : Machine).right_rotor_steps)
      26 ≠ 0 := by
    show Int.tmod (int_incr (spin_rotors m).right_rotor_steps) 26 ≠ 0
    rw [spin_rotors_steps]
    exact int_incr_quiet_twice _ h2
  have hsame : signal_path (spin_rotors { spin_rotors m with rotor_offsets := m.rotor_offsets })
      = signal_path (spin_rotors m) := by
    apply signal_path_congr
    · rw [spin_rotors_quiet _ hsteps, spin_rotors_quiet m (int_incr_quiet _ h1)]
    · rw [spin_rotors_pairings, spin_rotors_pairings]
  rw [encrypt_char_of_path _ _ (char_to_index (toupper c)) hdalpha
    (by rw [hdidx, hsame]; exact hback)]
  rw [(letter_index c hc).2]

/-- C2 (amended) at a concrete input: offsets (3,7,11), empty plugboard, step
counter 0, letter 'h'. -/
theorem encrypt_char_reciprocal_witness :
    ∃ d m1, encrypt_char (machine_at 3 7 11 0) 104 = some (d, m1) ∧
      ∃ m2, encrypt_char { m1 with rotor_offsets := (machine_at 3 7 11 0).rotor_offsets } d
        = some (toupper 104, m2) :=
  encrypt_char_reciprocal (machine_at 3 7 11 0) 104 (by decide)
    (plug_symmetric_of_empty _ rfl) (by decide) (by decide) (by decide)

/-- C2 as stated fails. Offsets (0,0,0), empty plugboard, step counter 24,
letter 'A': the first call brings the counter to 25 and returns 'F'; after the
offsets are reset the second call brings the counter to 26, turns the middle
rotor by 2 and returns 'T', not 'A'. -/
theorem encrypt_char_reciprocal_counterexample :
    ¬ ∀ (m : Machine) (c : Int), offsets_in_range m → plug_symmetric m →
        isalpha c = true →
        ∃ d m1, encrypt_char m c = some (d, m1) ∧
          ∃ m2, encrypt_char { m1 with rotor_offsets := m.rotor_offsets } d
            = some (toupper c, m2) := by
  intro h
  obtain ⟨d, m1, h1, m2, h2⟩ :=
    h (machine_at 0 0 0 24) 65 (by decide) (plug_symmetric_of_empty _ rfl) (by decide)
  have hrun : ((encrypt_char (machine_at 0 0 0 24) 65).bind (fun r =>
      encrypt_char { r.2 with rotor_offsets := (machine_at 0 0 0 24).rotor_offsets } r.1)).map
        Prod.fst = some 84 := by decide
  rw [h1, Option.some_bind, h2, Option.map_some'] at hrun
  have hbad : toupper 65 = 84 := Option.some.inj hrun
  revert hbad
  decide

theorem not_isalpha_space : isalpha 32 = false := by decide

theorem spin_rotors_offsets_congr (a b : Machine) (ho : a.rotor_offsets = b.rotor_offsets)
    (h : Int.tmod (int_incr a.right_rotor_steps) 26 = 0 ↔
      Int.tmod (int_incr b.right_rotor_steps) 26 = 0) :
    (spin_rotors a).rotor_offsets = (spin_rotors b).rotor_offsets := by
  by_cases ha : Int.tmod (int_incr a.right_rotor_steps) 26 = 0
  · rw [spin_rotors_turnover a ha, spin_rotors_turnover b (h.mp ha), ho]
  · rw [spin_rotors_quiet a ha, spin_rotors_quiet b (fun hb => ha (h.mpr hb)), ho]

theorem encrypt_message_letter_cons (m : Machine) (c : Int) (rest : List Int)
    (replies : List (Int × List Int)) (hc : isalpha c = true) :
    encrypt_message m (c :: rest) replies
      = (encrypt_char m c).bind (fun r =>
          (encrypt_message r.2 rest replies).map (fun q => (r.1 :: q.1, q.2))) := by
  have h32 : c ≠ 32 := by
    intro h
    rw [h] at hc
    revert hc
    decide
  simp only [encrypt_message, h32, if_false]

/-- Encrypting a letters-only message, and decrypting the result on any machine
that has the same offsets and plugboard and turns its middle rotor at the same
letters. -/
theorem encrypt_message_paired (msg : List Int) :
    ∀ (a : Machine) (ra : List (Int × List Int)), offsets_in_range a → plug_symmetric a →
      (∀ c ∈ msg, isalpha c = true) →
      ∃ ct a1, encrypt_message a msg ra = some (ct, a1) ∧
        a1.right_rotor_steps = int_incr^[msg.length] a.right_rotor_steps ∧
        a1.pairings = a.pairings ∧
        ∀ (b : Machine) (rb : List (Int × List Int)),
          b.rotor_offsets = a.rotor_offsets → b.pairings = a.pairings →
          in_step a b msg.length →
          ∃ b1, encrypt_message b ct rb = some (msg.map toupper, b1) := by
  induction msg with
  | nil =>
    intro a ra _ _ _
    refine ⟨[], a, rfl, rfl, rfl, ?_⟩
    intro b rb _ _ _
    exact ⟨b, rfl⟩
  | cons c rest ih =>
    intro a ra ho hp hl
    have hc : isalpha c = true := hl c (List.mem_cons_self _ _)
    obtain ⟨y, hy, henc, hback⟩ := encrypt_char_letter a c ho hp hc
    obtain ⟨_, hdalpha, _, hdidx⟩ := index_letter y hy
    obtain ⟨ct, a1, hrun, hsteps, hpair, hdec⟩ :=
      ih (spin_rotors a) ra (spin_rotors_in_range a ho)
        (plug_symmetric_congr a _ (spin_rotors_pairings a).symm hp)
        (fun c' hc' => hl c' (List.mem_cons_of_mem _ hc'))
    refine ⟨index_to_char y :: ct, a1, ?_, ?_, ?_, ?_⟩
    · rw [encrypt_message_letter_cons a c rest ra hc, henc, Option.some_bind, hrun]
      rfl
    · rw [hsteps, spin_rotors_steps, List.length_cons, Function.iterate_succ_apply]
    · rw [hpair, spin_rotors_pairings]
    · intro b rb hbo hbp hstep
      have h0 : Int.tmod (int_incr a.right_rotor_steps) 26 = 0 ↔
          Int.tmod (int_incr b.right_rotor_steps) 26 = 0 := hstep 0 (by simp)
      have hpath : signal_path (spin_rotors b) = signal_path (spin_rotors a) :=
        signal_path_congr _ _ (spin_rotors_offsets_congr b a hbo h0.symm)
          (by rw [spin_rotors_pairings, spin_rotors_pairings, hbp])
      obtain ⟨b1, hb1⟩ := hdec (spin_rotors b) rb
        (spin_rotors_offsets_congr b a hbo h0.symm)
        (by rw [spin_rotors_pairings, spin_rotors_pairings, hbp])
        (by
          intro k hk
          have := hstep (k + 1) (by simp only [List.length_cons]; omega)
          rw [spin_rotors_steps, spin_rotors_steps]
          simp only [Function.iterate_succ_apply] at this ⊢
          exact this)
      refine ⟨b1, ?_⟩
      rw [encrypt_message_letter_cons b _ ct rb hdalpha,
        encrypt_char_of_path b _ (char_to_index (toupper c)) hdalpha
          (by rw [hdidx, hpath]; exact hback),
        Option.some_bind, hb1, (letter_index c hc).2]
      rfl

theorem char_to_index_range (c : Int) (hc : isalpha c = true) :
    0 ≤ char_to_index c ∧ char_to_index c < 26 := by
  rw [isalpha_iff] at hc
  unfold char_to_index toupper
  split <;> omega

theorem set_rotor_positions_offsets (m : Machine) (l mi r : Int) (i : Fin 3) :
    (set_rotor_positions m l mi r).rotor_offsets i
      = match i with
        | 0 => char_to_index r
        | 1 => char_to_index mi
        | 2 => char_to_index l := by
  fin_cases i <;> simp [set_rotor_positions, Function.update]

theorem set_rotor_positions_offsets_congr (m n : Machine) (l mi r : Int) :
    (set_rotor_positions m l mi r).rotor_offsets
      = (set_rotor_positions n l mi r).rotor_offsets := by
  funext i
  rw [set_rotor_positions_offsets, set_rotor_positions_offsets]

theorem set_rotor_positions_in_range (m : Machine) (l mi r : Int)
    (hl : isalpha l = true) (hm : isalpha mi = true) (hr : isalpha r = true) :
    offsets_in_range (set_rotor_positions m l mi r) := by
  intro i
  rw [set_rotor_positions_offsets]
  fin_cases i
  · exact char_to_index_range r hr
  · exact char_to_index_range mi hm
  · exact char_to_index_range l hl

theorem in_step_of_length (a b : Machine) (n : Nat) (ha : a.right_rotor_steps = 0)
    (hb : b.right_rotor_steps = n) (hn : n < 13 ∨ (26 ∣ n ∧ 2 * n ≤ 2147483647)) :
    in_step a b n := by
  intro k hk
  rw [ha, hb, int_incr_iterate 0 (k + 1) (by push_cast; omega),
    int_incr_iterate n (k + 1) (by push_cast; omega),
    Int.tmod_eq_emod (by omega) (by decide), Int.tmod_eq_emod (by omega) (by decide)]
  push_cast
  rcases hn with hn | hn
  · omega
  · omega

/-- C3 (amended). Message round trip: fresh machine (step counter 0), letters
l, m, r, a symmetric plugboard, a letters-only message whose length is below 13,
or a multiple of 26 that the 32-bit step counter can count twice (at most
1073741823 letters). set_rotor_positions(l,m,r) and encrypt_message(msg) give
ct; set_rotor_positions(l,m,r) again and encrypt_message(ct) give the
upper-cased msg. -/
theorem message_round_trip (m0 : Machine) (l mi r : Int) (msg : List Int)
    (ra rb : List (Int × List Int)) (hfresh : m0.right_rotor_steps = 0)
    (hl : isalpha l = true) (hm : isalpha mi = true) (hr : isalpha r = true)
    (hp : plug_symmetric m0) (hmsg : ∀ c ∈ msg, isalpha c = true)
    (hlen : msg.length < 13 ∨ (26 ∣ msg.length ∧ 2 * msg.length ≤ 2147483647)) :
    ∃ ct m1, encrypt_message (set_rotor_positions m0 l mi r) msg ra = some (ct, m1) ∧
      ∃ m2, encrypt_message (set_rotor_positions m1 l mi r) ct rb
        = some (msg.map toupper, m2) := by
  obtain ⟨ct, m1, hrun, hsteps, hpair, hdec⟩ :=
    encrypt_message_paired msg (set_rotor_positions m0 l mi r) ra
      (set_rotor_positions_in_range m0 l mi r hl hm hr)
      (plug_symmetric_congr m0 _ rfl hp) hmsg
  refine ⟨ct, m1, hrun, ?_⟩
  apply hdec (set_rotor_positions m1 l mi r) rb
    (set_rotor_positions_offsets_congr m1 m0 l mi r) hpair
  apply in_step_of_length _ _ _ hfresh _ hlen
  show m1.right_rotor_steps = _
  rw [hsteps]
  show int_incr^[msg.length] m0.right_rotor_steps = _
  rw [hfresh, int_incr_iterate 0 msg.length (by omega)]
  omega

/-- C3 (amended) at a concrete input: fresh machine, positions Q e V, message
"Hello". -/
theorem message_round_trip_witness :
    ∃ ct m1, encrypt_message (set_rotor_positions Machine.init 81 101 86) (c_str "Hello") []
        = some (ct, m1) ∧
      ∃ m2, encrypt_message (set_rotor_positions m1 81 101 86) ct []
        = some ((c_str "Hello").map toupper, m2) :=
  message_round_trip Machine.init 81 101 86 (c_str "Hello") [] [] rfl (by decide) (by decide)
    (by decide) (plug_symmetric_of_empty _ rfl) (by decide) (Or.inl (by decide))

/-- C3 as stated fails. Fresh machine, empty plugboard, positions A A A and the
13-letter message AAAAAAAAAAAAA: the first pass brings the step counter to 13,
so the second pass reaches 26 at its 13th letter and turns the middle rotor
there; that letter comes back as 'P', not 'A'. -/
theorem message_round_trip_counterexample :
    ¬ ∀ (m0 : Machine) (l mi r : Int) (msg : List Int) (ra rb : List (Int × List Int)),
        m0.right_rotor_steps = 0 → isalpha l = true → isalpha mi = true →
        isalpha r = true → plug_symmetric m0 → (∀ c ∈ msg, isalpha c = true) →
        ∃ ct m1, encrypt_message (set_rotor_positions m0 l mi r) msg ra = some (ct, m1) ∧
          ∃ m2, encrypt_message (set_rotor_positions m1 l mi r) ct rb
            = some (msg.map toupper, m2) := by
  intro h
  obtain ⟨ct, m1, h1, m2, h2⟩ :=
    h Machine.init 65 65 65 (c_str "AAAAAAAAAAAAA") [] [] rfl (by decide) (by decide)
      (by decide) (plug_symmetric_of_empty _ rfl) (by decide)
  have hrun : ((encrypt_message (set_rotor_positions Machine.init 65 65 65)
      (c_str "AAAAAAAAAAAAA") []).bind (fun q =>
        encrypt_message (set_rotor_positions q.2 65 65 65) q.1 [])).map Prod.fst
      = some [65, 65, 65, 65, 65, 65, 65, 65, 65, 65, 65, 65, 80] := by decide
  rw [h1, Option.some_bind, h2, Option.map_some'] at hrun
  have hbad : (c_str "AAAAAAAAAAAAA").map toupper
      = [65, 65, 65, 65, 65, 65, 65, 65, 65, 65, 65, 65, 80] := Option.some.inj hrun
  revert hbad
  decide

/-- C4. Passthrough: for a non-alphabetic character c and any machine state,
encrypt_char(c) returns c and leaves offsets, step counter and plugboard as
they were. -/
theorem encrypt_char_passthrough (m : Machine) (c : Int) (hc : isalpha c = false) :
    encrypt_char m c = some (c, m) := by
  unfold encrypt_char
  rw [hc]
  rfl

/-- C4 at a concrete input: the digit '1' with offsets (3,7,11) and step
counter 25. -/
theorem encrypt_char_passthrough_witness :
    encrypt_char (machine_at 3 7 11 25) 49 = some (49, machine_at 3 7 11 25) :=
  encrypt_char_passthrough (machine_at 3 7 11 25) 49 (by decide)

theorem spin_rotors_right (m : Machine) :
    (spin_rotors m).rotor_offsets 0 = Int.tmod (m.rotor_offsets 0 + 1) 26 := by
  by_cases h : Int.tmod (int_incr m.right_rotor_steps) 26 = 0
  · rw [spin_rotors_turnover m h]; simp [Function.update]
  · rw [spin_rotors_quiet m h]; simp [Function.update]

theorem spin_rotors_middle (m : Machine) :
    (spin_rotors m).rotor_offsets 1
      = if int_incr m.right_rotor_steps % 26 = 0 then Int.tmod (m.rotor_offsets 1 + 2) 26
        else m.rotor_offsets 1 := by
  by_cases h : Int.tmod (int_incr m.right_rotor_steps) 26 = 0
  · rw [spin_rotors_turnover m h, if_pos ((turnover_iff _).mp h)]; simp [Function.update]
  · rw [spin_rotors_quiet m h, if_neg (fun h' => h ((turnover_iff _).mpr h'))]
    simp [Function.update]

theorem spin_rotors_left (m : Machine) :
    (spin_rotors m).rotor_offsets 2 = m.rotor_offsets 2 := by
  by_cases h : Int.tmod (int_incr m.right_rotor_steps) 26 = 0
  · rw [spin_rotors_turnover m h]; simp [Function.update]
  · rw [spin_rotors_quiet m h]; simp [Function.update]

/-- The right rotor after `n` steps, whatever the counter does. -/
theorem spin_rotors_iterate_right (m : Machine)
    (h0 : 0 ≤ m.rotor_offsets 0 ∧ m.rotor_offsets 0 < 26) (n : Nat) :
    (spin_rotors^[n] m).rotor_offsets 0 = (m.rotor_offsets 0 + n) % 26 := by
  induction n with
  | zero =>
    simp only [Function.iterate_zero, id_eq, Nat.cast_zero, Int.add_zero]
    omega
  | succ n ih =>
    rw [Function.iterate_succ_apply', spin_rotors_right, ih,
      Int.tmod_eq_emod (by omega) (by decide)]
    push_cast
    omega

/-- The counter and the middle rotor after `n` steps that do not take the
counter past `INT_MAX`. -/
theorem spin_rotors_iterate (m : Machine)
    (h1 : 0 ≤ m.rotor_offsets 1 ∧ m.rotor_offsets 1 < 26) (n : Nat) :
    m.right_rotor_steps + n ≤ 2147483647 →
    (spin_rotors^[n] m).right_rotor_steps = m.right_rotor_steps + n ∧
    (spin_rotors^[n] m).rotor_offsets 1
      = (m.rotor_offsets 1
          + 2 * ((m.right_rotor_steps + n) / 26 - m.right_rotor_steps / 26)) % 26 := by
  induction n with
  | zero =>
    intro _
    refine ⟨by simp, ?_⟩
    simp only [Function.iterate_zero, id_eq, Nat.cast_zero, Int.add_zero]
    omega
  | succ n ih =>
    intro hfit
    push_cast at hfit
    obtain ⟨ihs, ih1⟩ := ih (by omega)
    have hnext : int_incr (m.right_rotor_steps + n) = m.right_rotor_steps + n + 1 :=
      int_incr_below _ (by omega)
    rw [Function.iterate_succ_apply']
    refine ⟨?_, ?_⟩
    · rw [spin_rotors_steps, ihs, hnext]; push_cast; omega
    · rw [spin_rotors_middle, ihs, ih1, hnext]
      push_cast
      split
      · rw [Int.tmod_eq_emod (by omega) (by decide)]
        omega
      · omega

theorem encrypt_char_not_alpha (m : Machine) (c : Int) (hc : isalpha c = false) :
    encrypt_char m c = some (c, m) := by
  simp [encrypt_char, hc]

theorem encrypt_char_state (m : Machine) (c d : Int) (m1 : Machine)
    (h : encrypt_char m c = some (d, m1)) : m1 = m ∨ m1 = spin_rotors m := by
  cases hc : isalpha c with
  | false =>
    rw [encrypt_char_not_alpha m c hc] at h
    injection h with h
    injection h with _ h2
    exact Or.inl h2.symm
  | true =>
    rw [encrypt_char_alpha m c hc] at h
    cases hs : signal_path (spin_rotors m) (char_to_index (toupper c)) with
    | none => rw [hs] at h; cases h
    | some y =>
      rw [hs, Option.map_some'] at h
      injection h with h
      injection h with _ h2
      exact Or.inr h2.symm

theorem encrypt_chars_left (cs : List Int) :
    ∀ (m : Machine) (out : List Int) (m1 : Machine),
      encrypt_chars m cs = some (out, m1) → m1.rotor_offsets 2 = m.rotor_offsets 2 := by
  induction cs with
  | nil =>
    intro m out m1 h
    simp only [encrypt_chars, Option.some.injEq, Prod.mk.injEq] at h
    rw [h.2]
  | cons c cs ih =>
    intro m out m1 h
    simp only [encrypt_chars] at h
    cases hc : encrypt_char m c with
    | none => rw [hc] at h; cases h
    | some r =>
      obtain ⟨d, m2⟩ := r
      rw [hc, Option.some_bind] at h
      cases hr : encrypt_chars m2 cs with
      | none => rw [hr] at h; cases h
      | some q =>
        obtain ⟨out2, m3⟩ := q
        rw [hr, Option.map_some'] at h
        injection h with h
        injection h with _ h2
        rw [← h2]
        have h3 := ih m2 out2 m3 hr
        rcases encrypt_char_state m c d m2 hc with e | e
        · rw [h3, e]
        · rw [h3, e, spin_rotors_left]

/-- C6. The left rotor never advances automatically: for every machine state
and every n, after n calls to spin_rotors, and after encrypt_char on any list
of characters, rotor_offsets[2] has the value it had before. -/
theorem left_rotor_never_advances (m : Machine) :
    (∀ n : Nat, (spin_rotors^[n] m).rotor_offsets 2 = m.rotor_offsets 2) ∧
    (∀ (cs out : List Int) (m1 : Machine),
      encrypt_chars m cs = some (out, m1) → m1.rotor_offsets 2 = m.rotor_offsets 2) := by
  refine ⟨?_, fun cs out m1 h => encrypt_chars_left cs m out m1 h⟩
  intro n
  induction n with
  | zero => rfl
  | succ n ih => rw [Function.iterate_succ_apply', spin_rotors_left, ih]

/-- C6 at a concrete input: left offset 11, 100 steps, and the characters of
"Enigma 1942!". -/
theorem left_rotor_never_advances_witness :
    (spin_rotors^[100] (machine_at 3 7 11 20)).rotor_offsets 2 = 11 ∧
    ∃ out m1, encrypt_chars (machine_at 3 7 11 20) (c_str "Enigma 1942!") = some (out, m1) ∧
      m1.rotor_offsets 2 = 11 := by
  refine ⟨(left_rotor_never_advances (machine_at 3 7 11 20)).1 100, ?_⟩
  cases h : encrypt_chars (machine_at 3 7 11 20) (c_str "Enigma 1942!") with
  | none =>
    have hsome : (encrypt_chars (machine_at 3 7 11 20) (c_str "Enigma 1942!")).isSome
        = true := by decide
    rw [h] at hsome
    cases hsome
  | some r =>
    exact ⟨r.1, r.2, rfl, (left_rotor_never_advances (machine_at 3 7 11 20)).2 _ r.1 r.2 h⟩

theorem foldl_store_zero (l : List Nat) :
    ∀ (p : Fin 26 → Int) (k : Fin 26),
      (l.foldl (fun p (i : Nat) => store p (i : Int) 0) p) k = if k.val ∈ l then 0 else p k := by
  induction l with
  | nil => intro p k; simp
  | cons a l ih =>
    intro p k
    rw [List.foldl_cons, ih]
    by_cases hk : k.val ∈ l
    · simp [hk]
    · by_cases hka : k.val = a
      · simp [hk, hka, store]
      · have hne : ¬ ((k.val : Int) = (a : Int)) := by omega
        simp [hk, hka, store, hne]

/-- The first loop of `initialize_plugboard` leaves the all-zero table, and the
second loop starts from it. -/
theorem initialize_plugboard_pairings (m : Machine) (pairs : List Int) :
    (initialize_plugboard m pairs).pairings
      = plug_loop pairs pairs.length 0 (fun _ => 0) := by
  have hclear : (List.range 26).foldl (fun p (i : Nat) => store p (i : Int) 0) m.pairings
      = fun _ => 0 := by
    funext k
    rw [foldl_store_zero, if_pos (List.mem_range.mpr k.isLt)]
  show plug_loop pairs pairs.length 0 _ = _
  rw [hclear]

theorem plug_swap_rebuilt (m : Machine) (pairs : List Int) :
    plug_swap (initialize_plugboard m pairs)
      = plug_swap (initialize_plugboard Machine.init pairs) :=
  plug_swap_congr _ _ (by rw [initialize_plugboard_pairings, initialize_plugboard_pairings])

/-- C7. Plugboard built from the text "A B C D", from any prior mapping:
plug_swap sends the index of 'A' to the index of 'B', the index of 'B' to the
index of 'A', and leaves the index of 'E' where it is. -/
theorem plugboard_a_b_c_d (m : Machine) :
    plug_swap (initialize_plugboard m (c_str "A B C D")) (char_to_index 65)
      = some (char_to_index 66) ∧
    plug_swap (initialize_plugboard m (c_str "A B C D")) (char_to_index 66)
      = some (char_to_index 65) ∧
    plug_swap (initialize_plugboard m (c_str "A B C D")) (char_to_index 69)
      = some (char_to_index 69) := by
  rw [plug_swap_rebuilt]
  decide

/-- C8 (the code at the advertised text). After initialize_plugboard on
"A B C D", with or without the newline `fgets` keeps, A and B are swapped but
C and D are not: the stride-3 loop reads " C " and "D" as its second and third
entry and skips both. -/
theorem plugboard_advertised_text (m : Machine) :
    (plug_swap (initialize_plugboard m (c_str "A B C D\n")) 0 = some 1 ∧
     plug_swap (initialize_plugboard m (c_str "A B C D\n")) 1 = some 0 ∧
     plug_swap (initialize_plugboard m (c_str "A B C D\n")) 2 = some 2 ∧
     plug_swap (initialize_plugboard m (c_str "A B C D\n")) 3 = some 3) ∧
    (plug_swap (initialize_plugboard m (c_str "A B C D")) 2 = some 2 ∧
     plug_swap (initialize_plugboard m (c_str "A B C D")) 3 = some 3) := by
  rw [plug_swap_rebuilt, plug_swap_rebuilt m (c_str "A B C D")]
  decide

theorem letter_iff_index (c : Int) :
    (toupper c - 65 ≥ 0 ∧ toupper c - 65 < ALPHABET_SIZE ) ↔ isalpha c = true := by
  rw [isalpha_iff]
  unfold toupper ALPHABET_SIZE
  split <;> omega

theorem plug_entry_eq (pairs : List Int) (i : Nat) (p : Fin 26 → Int) :
    plug_entry pairs i p
      = if spec_entry_applies pairs i = true then
          spec_update p (char_to_index (pairs.getD i 0), char_to_index (pairs.getD (i + 2) 0))
        else p := by
  unfold plug_entry spec_entry_applies
  by_cases h1 : pairs.getD (i + 1) 0 = 32 ∧ i + 2 < pairs.length
  · rw [if_pos h1]
    by_cases h2 : isalpha (pairs.getD i 0) = true ∧ isalpha (pairs.getD (i + 2) 0) = true
    · have hcond : toupper (pairs.getD i 0) - 65 ≥ 0 ∧
          toupper (pairs.getD i 0) - 65 < ALPHABET_SIZE ∧
          toupper (pairs.getD (i + 2) 0) - 65 ≥ 0 ∧
          toupper (pairs.getD (i + 2) 0) - 65 < ALPHABET_SIZE :=
        ⟨((letter_iff_index _).mpr h2.1).1, ((letter_iff_index _).mpr h2.1).2,
          ((letter_iff_index _).mpr h2.2).1, ((letter_iff_index _).mpr h2.2).2⟩
      simp only [hcond, and_self, if_true, h1, h2, decide_True, Bool.and_self]
      rfl
    · have hcond : ¬ (toupper (pairs.getD i 0) - 65 ≥ 0 ∧
          toupper (pairs.getD i 0) - 65 < ALPHABET_SIZE ∧
          toupper (pairs.getD (i + 2) 0) - 65 ≥ 0 ∧
          toupper (pairs.getD (i + 2) 0) - 65 < ALPHABET_SIZE) := by
        intro hc
        exact h2 ⟨(letter_iff_index _).mp ⟨hc.1, hc.2.1⟩,
          (letter_iff_index _).mp ⟨hc.2.2.1, hc.2.2.2⟩⟩
      have hfalse : (decide (pairs.getD (i + 1) 0 = 32) && decide (i + 2 < pairs.length) &&
          isalpha (pairs.getD i 0) && isalpha (pairs.getD (i + 2) 0)) = false := by
        simp only [h1, decide_True, Bool.true_and, Bool.and_eq_false_iff]
        by_cases ha : isalpha (pairs.getD i 0) = true
        · right
          cases hb : isalpha (pairs.getD (i + 2) 0) with
          | false => rfl
          | true => exact absurd ⟨ha, hb⟩ h2
        · left
          simpa using ha
      simp only [hcond, if_false, hfalse, Bool.false_eq_true]
  · rw [if_neg h1]
    have hfalse : (decide (pairs.getD (i + 1) 0 = 32) && decide (i + 2 < pairs.length) &&
        isalpha (pairs.getD i 0) && isalpha (pairs.getD (i + 2) 0)) = false := by
      have : (decide (pairs.getD (i + 1) 0 = 32) && decide (i + 2 < pairs.length)) = false := by
        simpa using h1
      rw [this]
      rfl
    simp only [hfalse, Bool.false_eq_true, if_false]

theorem filter_range'_stride (i len : Nat) (hi : i % 3 = 0) (hlen : 0 < len) :
    (List.range' i len).filter (fun j => j % 3 = 0)
      = i :: (List.range' (i + 3) (len - 3)).filter (fun j => j % 3 = 0) := by
  have h1 : ¬ ((i + 1) % 3 = 0) := by omega
  have h2 : ¬ ((i + 2) % 3 = 0) := by omega
  rcases len with _ | _ | _ | len
  · omega
  · simp [List.range', hi]
  · simp [List.range', hi, h1]
  · simp [List.range', hi, h1, h2]

theorem plug_loop_eq (pairs : List Int) :
    ∀ (fuel i : Nat) (p : Fin 26 → Int), i % 3 = 0 → pairs.length ≤ fuel + i →
      plug_loop pairs fuel i p
        = ((List.range' i (pairs.length - i)).filter (fun j => j % 3 = 0)).foldl
            (fun p j => plug_entry pairs j p) p := by
  intro fuel
  induction fuel with
  | zero =>
    intro i p _ hle
    have : pairs.length - i = 0 := by omega
    rw [this]
    rfl
  | succ fuel ih =>
    intro i p hi hle
    unfold plug_loop
    by_cases hlt : i < pairs.length
    · rw [if_pos hlt, filter_range'_stride i _ hi (by omega), List.foldl_cons,
        ih (i + 3) _ (by omega) (by omega)]
      have : pairs.length - (i + 3) = pairs.length - i - 3 := by omega
      rw [this]
    · rw [if_neg hlt]
      have : pairs.length - i = 0 := by omega
      rw [this]
      rfl

theorem foldl_filter_map {α β γ : Type} (c : α → Bool) (g : α → β) (f : γ → β → γ)
    (l : List α) :
    ∀ p : γ, l.foldl (fun p j => if c j = true then f p (g j) else p) p
      = ((l.filter c).map g).foldl f p := by
  induction l with
  | nil => intro p; rfl
  | cons a l ih =>
    intro p
    rw [List.foldl_cons, ih]
    cases hc : c a with
    | false => simp [List.filter, hc]
    | true => simp [List.filter, hc]

/-- The table `initialize_plugboard` leaves is the one the specification
describes, whatever the table was before. -/
theorem initialize_plugboard_eq_spec (m : Machine) (pairs : List Int) :
    (initialize_plugboard m pairs).pairings = plugboard_spec pairs := by
  rw [initialize_plugboard_pairings,
    plug_loop_eq pairs pairs.length 0 _ (by decide) (by omega)]
  have hfun : (fun (p : Fin 26 → Int) (j : Nat) => plug_entry pairs j p)
      = fun p j => if spec_entry_applies pairs j = true then
          spec_update p
            ((fun i => (char_to_index (pairs.getD i 0), char_to_index (pairs.getD (i + 2) 0))) j)
        else p := by
    funext p j
    exact plug_entry_eq pairs j p
  rw [hfun, foldl_filter_map, Nat.sub_zero, ← List.range_eq_range']
  rfl

theorem plug_swap_fin (m : Machine) (k : Fin 26) :
    plug_swap m (k.val : Int) = some ((k.val : Int) + m.pairings k) := by
  have hk : 0 ≤ (k.val : Int) ∧ (k.val : Int) < 26 := ⟨by omega, by omega⟩
  unfold plug_swap
  rw [dif_pos hk]
  simp

theorem plug_symmetric_of_table (m : Machine) (h : table_symmetric m.pairings) :
    plug_symmetric m := by
  intro a h0 h26
  obtain ⟨n, rfl⟩ := Int.eq_ofNat_of_zero_le h0
  have hn : n < 26 := by omega
  obtain ⟨j, hj1, hj2⟩ := h ⟨n, hn⟩
  have e1 := plug_swap_fin m ⟨n, hn⟩
  simp only at e1 hj1 hj2
  rw [e1, Option.some_bind, ← hj1, plug_swap_fin m j, ← hj2]

theorem spec_update_apply (p : Fin 26 → Int) (e : Int × Int) (k : Fin 26) :
    spec_update p e k
      = if (k.val : Int) = e.2 then e.1 - e.2
        else if (k.val : Int) = e.1 then e.2 - e.1 else p k := rfl

theorem table_symmetric_update (p : Fin 26 → Int) (e : Int × Int)
    (hs : table_symmetric p) (h1 : 0 ≤ e.1 ∧ e.1 < 26) (h2 : 0 ≤ e.2 ∧ e.2 < 26)
    (hfix : ∀ k : Fin 26, (k.val : Int) = e.1 ∨ (k.val : Int) = e.2 → p k = 0) :
    table_symmetric (spec_update p e) := by
  obtain ⟨a, ha⟩ := Int.eq_ofNat_of_zero_le h1.1
  obtain ⟨b, hb⟩ := Int.eq_ofNat_of_zero_le h2.1
  have ha26 : a < 26 := by omega
  have hb26 : b < 26 := by omega
  intro k
  by_cases hk2 : (k.val : Int) = e.2
  · refine ⟨⟨a, ha26⟩, ?_, ?_⟩
    · rw [spec_update_apply, if_pos hk2]
      simp only
      omega
    · rw [spec_update_apply]
      simp only
      split
      · omega
      · rw [if_pos ha.symm]
        omega
  · by_cases hk1 : (k.val : Int) = e.1
    · refine ⟨⟨b, hb26⟩, ?_, ?_⟩
      · rw [spec_update_apply, if_neg hk2, if_pos hk1]
        simp only
        omega
      · rw [spec_update_apply]
        simp only
        rw [if_pos hb.symm]
        omega
    · obtain ⟨j, hj1, hj2⟩ := hs k
      have hj : ¬ ((j.val : Int) = e.1 ∨ (j.val : Int) = e.2) := by
        intro hje
        have := hfix j hje
        rw [this] at hj2
        rcases hje with hje | hje <;> omega
      refine ⟨j, ?_, ?_⟩
      · rw [spec_update_apply, if_neg hk2, if_neg hk1]
        exact hj1
      · rw [spec_update_apply, if_neg (fun h => hj (Or.inr h)),
          if_neg (fun h => hj (Or.inl h))]
        exact hj2

theorem table_symmetric_foldl (l : List (Int × Int)) :
    ∀ p : Fin 26 → Int, table_symmetric p →
      (∀ e ∈ l, (0 ≤ e.1 ∧ e.1 < 26) ∧ (0 ≤ e.2 ∧ e.2 < 26)) →
      (∀ e ∈ l, ∀ k : Fin 26, (k.val : Int) = e.1 ∨ (k.val : Int) = e.2 → p k = 0) →
      l.Pairwise (fun e f => e.1 ≠ f.1 ∧ e.1 ≠ f.2 ∧ e.2 ≠ f.1 ∧ e.2 ≠ f.2) →
      table_symmetric (l.foldl spec_update p) := by
  induction l with
  | nil => intro p hs _ _ _; exact hs
  | cons e l ih =>
    intro p hs hr hfix hd
    rw [List.pairwise_cons] at hd
    rw [List.foldl_cons]
    have he := hr e (List.mem_cons_self _ _)
    apply ih
    · exact table_symmetric_update p e hs he.1 he.2 (hfix e (List.mem_cons_self _ _))
    · exact fun f hf => hr f (List.mem_cons_of_mem _ hf)
    · intro f hf k hk
      have hne := hd.1 f hf
      rw [spec_update_apply]
      have hk2 : ¬ ((k.val : Int) = e.2) := by
        intro h
        rcases hk with hk | hk
        · exact hne.2.2.1 (h.symm.trans hk)
        · exact hne.2.2.2 (h.symm.trans hk)
      have hk1 : ¬ ((k.val : Int) = e.1) := by
        intro h
        rcases hk with hk | hk
        · exact hne.1 (h.symm.trans hk)
        · exact hne.2.1 (h.symm.trans hk)
      rw [if_neg hk2, if_neg hk1]
      exact hfix f (List.mem_cons_of_mem _ hf) k hk
    · exact hd.2

theorem spec_entries_range (text : List Int) :
    ∀ e ∈ spec_entries text, (0 ≤ e.1 ∧ e.1 < 26) ∧ (0 ≤ e.2 ∧ e.2 < 26) := by
  intro e he
  unfold spec_entries at he
  rw [List.mem_map] at he
  obtain ⟨i, hi, rfl⟩ := he
  rw [List.mem_filter] at hi
  have happ := hi.2
  unfold spec_entry_applies at happ
  simp only [Bool.and_eq_true] at happ
  exact ⟨char_to_index_range _ happ.1.2, char_to_index_range _ happ.2⟩

theorem initialize_plugboard_symmetric (m : Machine) (pairs : List Int)
    (hd : entries_disjoint pairs) : plug_symmetric (initialize_plugboard m pairs) := by
  apply plug_symmetric_of_table
  rw [initialize_plugboard_eq_spec]
  apply table_symmetric_foldl _ _ _ (spec_entries_range pairs) _ hd
  · intro k
    exact ⟨k, by simp, by simp⟩
  · intro _ _ _ _
    rfl

/-- C9 (amended). Plugboard symmetry: for every specification text in which no
letter occurs in two applied entries, the mapping left by initialize_plugboard
is symmetric: for all indices a, b in [0,26), plug_swap(a) == b implies
plug_swap(b) == a, and plug_swap(plug_swap(a)) == a. -/
theorem plugboard_symmetry (m : Machine) (pairs : List Int) (hd : entries_disjoint pairs) :
    (∀ a b : Int, 0 ≤ a → a < 26 → 0 ≤ b → b < 26 →
      plug_swap (initialize_plugboard m pairs) a = some b →
      plug_swap (initialize_plugboard m pairs) b = some a) ∧
    (∀ a : Int, 0 ≤ a → a < 26 →
      (plug_swap (initialize_plugboard m pairs) a).bind
        (plug_swap (initialize_plugboard m pairs)) = some a) := by
  have hs := initialize_plugboard_symmetric m pairs hd
  refine ⟨?_, hs⟩
  intro a b ha0 ha26 _ _ hab
  have := hs a ha0 ha26
  rw [hab, Option.some_bind] at this
  exact this

/-- C9 (amended) at a concrete input: the text "A BC D", whose applied entries
are A-B and C-D. -/
theorem plugboard_symmetry_witness :
    (∀ a b : Int, 0 ≤ a → a < 26 → 0 ≤ b → b < 26 →
      plug_swap (initialize_plugboard Machine.init (c_str "A BC D")) a = some b →
      plug_swap (initialize_plugboard Machine.init (c_str "A BC D")) b = some a) ∧
    (∀ a : Int, 0 ≤ a → a < 26 →
      (plug_swap (initialize_plugboard Machine.init (c_str "A BC D")) a).bind
        (plug_swap (initialize_plugboard Machine.init (c_str "A BC D"))) = some a) :=
  plugboard_symmetry Machine.init (c_str "A BC D") (by unfold entries_disjoint; decide)

/-- C9 as stated fails. The text "A BA C" has the applied entries A-B and A-C:
afterwards plug_swap sends B to A, but A to C, not back to B. -/
theorem plugboard_symmetry_counterexample :
    ¬ ∀ (m : Machine) (pairs : List Int) (a b : Int),
        0 ≤ a → a < 26 → 0 ≤ b → b < 26 →
        plug_swap (initialize_plugboard m pairs) a = some b →
        plug_swap (initialize_plugboard m pairs) b = some a := by
  intro h
  have hbad := h Machine.init (c_str "A BA C") 1 0 (by decide) (by decide) (by decide)
    (by decide) (by decide)
  revert hbad
  decide

/-- C10. Plugboard configuration is a wholesale rebuild with skip-and-continue
parsing: for every prior mapping and every text, the mapping after
initialize_plugboard is the all-zero mapping updated, in order, by exactly the
entries at positions 0,3,6,... whose second character is a space, whose third
character lies inside the text and whose first and third characters are
letters. -/
theorem initialize_plugboard_rebuild (m : Machine) (pairs : List Int) :
    (initialize_plugboard m pairs).pairings = plugboard_spec pairs :=
  initialize_plugboard_eq_spec m pairs

/-! ## No fixed point, golden value, table facts -/

set_option maxRecDepth 100000 in
theorem reflector_no_fixed_fin : ∀ i : Fin 26, reflect (i.val : Int) ≠ some (i.val : Int) := by
  decide

theorem reflect_ne_self (x : Int) (hx : 0 ≤ x ∧ x < 26) : reflect x ≠ some x := by
  obtain ⟨n, rfl⟩ := Int.eq_ofNat_of_zero_le hx.1
  have hn : n < 26 := by omega
  exact reflector_no_fixed_fin ⟨n, hn⟩

/-- At fixed offsets and a symmetric plugboard the signal path has no fixed
point: a fixed point would be carried by the rotors to a fixed point of the
reflector. -/
theorem signal_path_ne_self (m : Machine) (ho : offsets_in_range m)
    (hp : plug_symmetric m) (x : Int) (hx : 0 ≤ x ∧ x < 26) :
    signal_path m x ≠ some x := by
  obtain ⟨p, hp1, hp0, hp26, hpb⟩ := plug_symmetric_swap m hp x hx
  obtain ⟨a, ha, ha0, ha26, _⟩ := rotor_forward_backward m 0 p (ho 0) ⟨hp0, hp26⟩
  obtain ⟨b, hb, hb0, hb26, _⟩ := rotor_forward_backward m 1 a (ho 1) ⟨ha0, ha26⟩
  obtain ⟨c, hc, hc0, hc26, _⟩ := rotor_forward_backward m 2 b (ho 2) ⟨hb0, hb26⟩
  obtain ⟨u, hu, hu0, hu26, _⟩ := reflect_involution c ⟨hc0, hc26⟩
  have r2 := rotor_l_to_r_range m 2 u (ho 2) ⟨hu0, hu26⟩
  have r1 := rotor_l_to_r_range m 1 _ (ho 1) r2
  have r0 := rotor_l_to_r_range m 0 _ (ho 0) r1
  obtain ⟨y, hy, _, _, hyb⟩ := plug_symmetric_swap m hp _ r0
  have hpath : signal_path m x = some y := by
    simp only [signal_path, hp1, ha, hb, hc, hu, hy, Option.bind_eq_bind, Option.some_bind]
  rw [hpath]
  intro hyx
  have hyx : y = x := Option.some.inj hyx
  rw [hyx, hp1] at hyb
  have e0 : p = rotor_l_to_r m (rotor_l_to_r m (rotor_l_to_r m u 2) 1) 0 :=
    Option.some.inj hyb
  have f0 := rotor_backward_forward m 0 _ (ho 0) r1
  rw [← e0, ha] at f0
  have e1 : a = rotor_l_to_r m (rotor_l_to_r m u 2) 1 := Option.some.inj f0
  have f1 := rotor_backward_forward m 1 _ (ho 1) r2
  rw [← e1, hb] at f1
  have e2 : b = rotor_l_to_r m u 2 := Option.some.inj f1
  have f2 := rotor_backward_forward m 2 u (ho 2) ⟨hu0, hu26⟩
  rw [← e2, hc] at f2
  have e3 : c = u := Option.some.inj f2
  rw [← e3] at hu
  exact reflect_ne_self c ⟨hc0, hc26⟩ hu

theorem encrypt_char_ne_self (m : Machine) (c : Int) (ho : offsets_in_range m)
    (hp : plug_symmetric m) (hc : isalpha c = true) :
    ∃ d m1, encrypt_char m c = some (d, m1) ∧ d ≠ toupper c := by
  obtain ⟨y, hy, henc, hback⟩ := encrypt_char_letter m c ho hp hc
  refine ⟨index_to_char y, spin_rotors m, henc, ?_⟩
  intro hd
  obtain ⟨hx, hxc⟩ := letter_index c hc
  have hyx : y = char_to_index (toupper c) := by
    have h1 := (index_letter y hy).2.2.2
    rw [hd] at h1
    have huu : toupper (toupper c) = toupper c := by
      have := (index_letter y hy).2.2.1
      rw [hd] at this
      exact this
    rw [huu] at h1
    unfold char_to_index
    rw [huu]
    unfold char_to_index at h1
    omega
  rw [hyx] at hback
  exact signal_path_ne_self (spin_rotors m) (spin_rotors_in_range m ho)
    (plug_symmetric_congr m _ (spin_rotors_pairings m).symm hp) _ hx hback

/-- C11. No letter encrypts to itself: offsets in [0,26), any step counter, a
symmetric plugboard (the empty one included) and a letter c: encrypt_char(c)
returns a character different from the upper-cased c. In particular the
encryption of "HELLO" from offsets (0,0,0) with the empty plugboard, "MFNCZ",
differs from "HELLO" at each of its five positions. -/
theorem no_letter_encrypts_to_itself (m : Machine) (c : Int) (ho : offsets_in_range m)
    (hp : plug_symmetric m) (hc : isalpha c = true) :
    (∃ d m1, encrypt_char m c = some (d, m1) ∧ d ≠ toupper c) ∧
    (encrypt_message Machine.init (c_str "HELLO") []).map Prod.fst = some (c_str "MFNCZ") ∧
    (∀ i : Fin 5, (c_str "MFNCZ").getD i.val 0 ≠ (c_str "HELLO").getD i.val 0) :=
  ⟨encrypt_char_ne_self m c ho hp hc, by decide, by decide⟩

/-- C11 at a concrete input: offsets (3,7,11), step counter 25, empty plugboard,
letter 'q'. -/
theorem no_letter_encrypts_to_itself_witness :
    (∃ d m1, encrypt_char (machine_at 3 7 11 25) 113 = some (d, m1) ∧ d ≠ toupper 113) ∧
    (encrypt_message Machine.init (c_str "HELLO") []).map Prod.fst = some (c_str "MFNCZ") ∧
    (∀ i : Fin 5, (c_str "MFNCZ").getD i.val 0 ≠ (c_str "HELLO").getD i.val 0) :=
  no_letter_encrypts_to_itself (machine_at 3 7 11 25) 113 (by decide)
    (plug_symmetric_of_empty _ rfl) (by decide)

/-- C12. End-to-end golden value: in the initial machine state (offsets
(0,0,0), step counter 0, empty plugboard) encrypt_char('A') returns 'F', and
after the offsets are reset to (0,0,0) encrypt_char('F') returns 'A'. -/
theorem golden_value :
    (encrypt_char Machine.init 65).map Prod.fst = some 70 ∧
    ((encrypt_char Machine.init 65).bind (fun r =>
        encrypt_char { r.2 with rotor_offsets := fun _ => 0 } 70)).map Prod.fst = some 65 := by
  decide

/-- C13. Rotor lookups always succeed: every entry of a rotor table is a
letter, and for every rotor and every c in [0,26) index_inverse(c, rotor) is
the unique i in [0,26) with rotors[rotor][i] == 'A' + c; it is never -1. -/
theorem rotor_lookups_succeed (rotor : Fin 3) (c : Int) (hc : 0 ≤ c ∧ c < 26) :
    (∃ w : Int, read_at (rotors rotor) c = some (65 + w) ∧ 0 ≤ w ∧ w < 26) ∧
    (0 ≤ index_inverse c rotor ∧ index_inverse c rotor < 26) ∧
    index_inverse c rotor ≠ -1 ∧
    read_at (rotors rotor) (index_inverse c rotor) = some (65 + c) ∧
    (∀ i : Int, 0 ≤ i → i < 26 → read_at (rotors rotor) i = some (65 + c) →
      i = index_inverse c rotor) := by
  obtain ⟨h0, h26, hread⟩ := rotors_inverse rotor c hc
  obtain ⟨w, hw, hw0, hw26, _⟩ := rotors_wiring rotor c hc
  refine ⟨⟨w, by rw [hw, Int.add_comm], hw0, hw26⟩, ⟨h0, h26⟩, by omega,
    by rw [hread, Int.add_comm], ?_⟩
  intro i hi0 hi26 hi
  obtain ⟨v, hv, _, _, hinv⟩ := rotors_wiring rotor i ⟨hi0, hi26⟩
  rw [hv] at hi
  have hvc : v = c := by
    have := Option.some.inj hi
    omega
  rw [← hvc, hinv]

/-- C13 at a concrete input: the letter 'E' (index 4) in rotor I, found at
position 0. -/
theorem rotor_lookups_succeed_witness :
    (∃ w : Int, read_at (rotors 0) 4 = some (65 + w) ∧ 0 ≤ w ∧ w < 26) ∧
    (0 ≤ index_inverse 4 0 ∧ index_inverse 4 0 < 26) ∧
    index_inverse 4 0 ≠ -1 ∧
    read_at (rotors 0) (index_inverse 4 0) = some (65 + 4) ∧
    (∀ i : Int, 0 ≤ i → i < 26 → read_at (rotors 0) i = some (65 + 4) →
      i = index_inverse 4 0) :=
  rotor_lookups_succeed 0 4 (by decide)

/-- C14. The reflector table is an involution without fixed point: for every i
in [0,26), reflect(i) is in [0,26), reflect(reflect(i)) == i and
reflect(i) != i. -/
theorem reflector_is_pairing (i : Int) (hi : 0 ≤ i ∧ i < 26) :
    ∃ j : Int, reflect i = some j ∧ (0 ≤ j ∧ j < 26) ∧ reflect j = some i ∧ j ≠ i := by
  obtain ⟨j, hj, hj0, hj26, hback⟩ := reflect_involution i hi
  refine ⟨j, hj, ⟨hj0, hj26⟩, hback, ?_⟩
  intro hji
  rw [hji] at hj
  exact reflect_ne_self i hi hj

/-- C14 at a concrete input: index 0 ('A'), paired with index 24 ('Y'). -/
theorem reflector_is_pairing_witness :
    ∃ j : Int, reflect 0 = some j ∧ (0 ≤ j ∧ j < 26) ∧ reflect j = some 0 ∧ j ≠ 0 :=
  reflector_is_pairing 0 (by decide)

/-! ## Rotor positions and the alphabet codec -/

/-- With letters as arguments, and under stepping and encryption, the offsets
stay in [0,26). -/
theorem offsets_in_range_kept (m : Machine) (ho : offsets_in_range m) :
    offsets_in_range (spin_rotors m) ∧
    (∀ c d m1, encrypt_char m c = some (d, m1) → offsets_in_range m1) ∧
    (∀ l mi r, isalpha l = true → isalpha mi = true → isalpha r = true →
      offsets_in_range (set_rotor_positions m l mi r)) := by
  refine ⟨spin_rotors_in_range m ho, ?_, ?_⟩
  · intro c d m1 h
    rcases encrypt_char_state m c d m1 h with e | e
    · rw [e]; exact ho
    · rw [e]; exact spin_rotors_in_range m ho
  · intro l mi r hl hm hr
    exact set_rotor_positions_in_range m l mi r hl hm hr

/-- C15 (the code at a failing input). Command 1 passes the typed characters
on unchecked: from the initial state set_rotor_positions('1','2','3') leaves the
offsets -16, -15, -14 (left, middle, right), outside [0,26); the status line
then shows '1','2','3', and encrypt_char('A') indexes rotors[0] at -13 and has
no defined result. -/
theorem rotor_positions_unchecked :
    (set_rotor_positions Machine.init 49 50 51).rotor_offsets 2 = -16 ∧
    (set_rotor_positions Machine.init 49 50 51).rotor_offsets 1 = -15 ∧
    (set_rotor_positions Machine.init 49 50 51).rotor_offsets 0 = -14 ∧
    ¬ offsets_in_range (set_rotor_positions Machine.init 49 50 51) ∧
    print_rotor_status (set_rotor_positions Machine.init 49 50 51) = (49, 50, 51) ∧
    (spin_rotors (set_rotor_positions Machine.init 49 50 51)).rotor_offsets 0 = -13 ∧
    (encrypt_char (set_rotor_positions Machine.init 49 50 51) 65).isNone = true := by
  decide

theorem index_of_letter (c : Int) (hc : isalpha c = true) :
    index_to_char (char_to_index c) = toupper c := by
  have hr := char_to_index_range c hc
  unfold index_to_char
  rw [tmod_alphabet _ hr.1]
  unfold char_to_index at hr ⊢
  omega

/-- C16. Position set/get round trip: for letters l, m, r of either case and
every machine state, after set_rotor_positions(l, m, r) the positions shown for
left, middle, right are the upper-cased l, m, r, and the step counter and the
plugboard mapping are unchanged. -/
theorem rotor_positions_round_trip (m : Machine) (l mi r : Int)
    (hl : isalpha l = true) (hm : isalpha mi = true) (hr : isalpha r = true) :
    print_rotor_status (set_rotor_positions m l mi r) = (toupper l, toupper mi, toupper r) ∧
    (set_rotor_positions m l mi r).right_rotor_steps = m.right_rotor_steps ∧
    (set_rotor_positions m l mi r).pairings = m.pairings := by
  refine ⟨?_, rfl, rfl⟩
  unfold print_rotor_status
  rw [set_rotor_positions_offsets, set_rotor_positions_offsets, set_rotor_positions_offsets]
  simp only
  rw [index_of_letter l hl, index_of_letter mi hm, index_of_letter r hr]

/-- C16 at a concrete input: positions 'q', 'E', 'v' on a machine with step
counter 25. -/
theorem rotor_positions_round_trip_witness :
    print_rotor_status (set_rotor_positions (machine_at 3 7 11 25) 113 69 118)
      = (toupper 113, toupper 69, toupper 118) ∧
    (set_rotor_positions (machine_at 3 7 11 25) 113 69 118).right_rotor_steps
      = (machine_at 3 7 11 25).right_rotor_steps ∧
    (set_rotor_positions (machine_at 3 7 11 25) 113 69 118).pairings
      = (machine_at 3 7 11 25).pairings :=
  rotor_positions_round_trip (machine_at 3 7 11 25) 113 69 118 (by decide) (by decide)
    (by decide)

/-- C17 (the code at failing inputs). The C remainder of a negative index is
negative: index_to_char(-1) is 64 ('@') and index_to_char(-16) is 49 ('1'),
neither in 'A'..'Z'; for indices from 0 on, 26 and above included, the result
is in 'A'..'Z'. -/
theorem index_to_char_negative :
    index_to_char (-1) = 64 ∧ index_to_char (-16) = 49 ∧
    ¬ (65 ≤ index_to_char (-1) ∧ index_to_char (-1) ≤ 90) ∧
    (∀ index : Int, 0 ≤ index → 65 ≤ index_to_char index ∧ index_to_char index ≤ 90) := by
  refine ⟨by decide, by decide, by decide, ?_⟩
  intro index h
  unfold index_to_char
  rw [tmod_alphabet _ h]
  omega

/-! ## Totality of the signal path -/

theorem plug_in_range_of_table (m : Machine) (h : table_in_range m.pairings) :
    plug_in_range m := by
  intro a h0 h26
  obtain ⟨n, rfl⟩ := Int.eq_ofNat_of_zero_le h0
  have hn : n < 26 := by omega
  have e := plug_swap_fin m ⟨n, hn⟩
  have hk := h ⟨n, hn⟩
  simp only at e hk
  exact ⟨_, e, hk.1, hk.2⟩

theorem plug_in_range_congr (m n : Machine) (h : m.pairings = n.pairings)
    (hp : plug_in_range m) : plug_in_range n := by
  intro a h0 h26
  rw [← plug_swap_congr m n h]
  exact hp a h0 h26

theorem plug_in_range_of_symmetric (m : Machine) (hp : plug_symmetric m) :
    plug_in_range m := by
  intro a h0 h26
  obtain ⟨b, hb, hb0, hb26, _⟩ := plug_symmetric_swap m hp a ⟨h0, h26⟩
  exact ⟨b, hb, hb0, hb26⟩

theorem table_in_range_update (p : Fin 26 → Int) (e : Int × Int)
    (hp : table_in_range p) (h1 : 0 ≤ e.1 ∧ e.1 < 26) (h2 : 0 ≤ e.2 ∧ e.2 < 26) :
    table_in_range (spec_update p e) := by
  intro k
  rw [spec_update_apply]
  have hk := hp k
  split
  · omega
  · split
    · omega
    · exact hk

theorem table_in_range_foldl (l : List (Int × Int)) :
    ∀ p : Fin 26 → Int, table_in_range p →
      (∀ e ∈ l, (0 ≤ e.1 ∧ e.1 < 26) ∧ (0 ≤ e.2 ∧ e.2 < 26)) →
      table_in_range (l.foldl spec_update p) := by
  induction l with
  | nil => intro p hp _; exact hp
  | cons e l ih =>
    intro p hp hr
    rw [List.foldl_cons]
    have he := hr e (List.mem_cons_self _ _)
    exact ih _ (table_in_range_update p e hp he.1 he.2)
      (fun f hf => hr f (List.mem_cons_of_mem _ hf))

/-- Whatever the text, the table `initialize_plugboard` leaves sends indices of
[0,26) to indices of [0,26). -/
theorem initialize_plugboard_in_range (m : Machine) (pairs : List Int) :
    plug_in_range (initialize_plugboard m pairs) := by
  apply plug_in_range_of_table
  rw [initialize_plugboard_eq_spec]
  apply table_in_range_foldl _ _ _ (spec_entries_range pairs)
  intro k
  simp only [Int.add_zero]
  omega

/-- Every stage of the signal path, on a machine with offsets in [0,26) and a
plugboard that stays in [0,26). -/
theorem signal_path_trace (m : Machine) (ho : offsets_in_range m) (hp : plug_in_range m)
    (x : Int) (hx : 0 ≤ x ∧ x < 26) :
    ∃ p a b d u y : Int,
      (plug_swap m x = some p ∧ 0 ≤ p ∧ p < 26) ∧
      (rotor_r_to_l m p 0 = some a ∧ 0 ≤ a ∧ a < 26) ∧
      (rotor_r_to_l m a 1 = some b ∧ 0 ≤ b ∧ b < 26) ∧
      (rotor_r_to_l m b 2 = some d ∧ 0 ≤ d ∧ d < 26) ∧
      (reflect d = some u ∧ 0 ≤ u ∧ u < 26) ∧
      (0 ≤ rotor_l_to_r m u 2 ∧ rotor_l_to_r m u 2 < 26) ∧
      (0 ≤ rotor_l_to_r m (rotor_l_to_r m u 2) 1 ∧
        rotor_l_to_r m (rotor_l_to_r m u 2) 1 < 26) ∧
      (0 ≤ rotor_l_to_r m (rotor_l_to_r m (rotor_l_to_r m u 2) 1) 0 ∧
        rotor_l_to_r m (rotor_l_to_r m (rotor_l_to_r m u 2) 1) 0 < 26) ∧
      (plug_swap m (rotor_l_to_r m (rotor_l_to_r m (rotor_l_to_r m u 2) 1) 0) = some y ∧
        0 ≤ y ∧ y < 26) ∧
      signal_path m x = some y := by
  obtain ⟨p, hp1, hp0, hp26⟩ := hp x hx.1 hx.2
  obtain ⟨a, ha, ha0, ha26, _⟩ := rotor_forward_backward m 0 p (ho 0) ⟨hp0, hp26⟩
  obtain ⟨b, hb, hb0, hb26, _⟩ := rotor_forward_backward m 1 a (ho 1) ⟨ha0, ha26⟩
  obtain ⟨d, hd, hd0, hd26, _⟩ := rotor_forward_backward m 2 b (ho 2) ⟨hb0, hb26⟩
  obtain ⟨u, hu, hu0, hu26, _⟩ := reflect_involution d ⟨hd0, hd26⟩
  have r2 := rotor_l_to_r_range m 2 u (ho 2) ⟨hu0, hu26⟩
  have r1 := rotor_l_to_r_range m 1 _ (ho 1) r2
  have r0 := rotor_l_to_r_range m 0 _ (ho 0) r1
  obtain ⟨y, hy, hy0, hy26⟩ := hp _ r0.1 r0.2
  refine ⟨p, a, b, d, u, y, ⟨hp1, hp0, hp26⟩, ⟨ha, ha0, ha26⟩, ⟨hb, hb0, hb26⟩,
    ⟨hd, hd0, hd26⟩, ⟨hu, hu0, hu26⟩, r2, r1, r0, ⟨hy, hy0, hy26⟩, ?_⟩
  simp only [signal_path, hp1, ha, hb, hd, hu, hy, Option.bind_eq_bind, Option.some_bind]

/-- The lookup inside `rotor_l_to_r` finds its letter. -/
theorem rotor_l_to_r_lookup (m : Machine) (rotor : Fin 3) (x : Int)
    (ho : 0 ≤ m.rotor_offsets rotor ∧ m.rotor_offsets rotor < 26) (hx : 0 ≤ x ∧ x < 26) :
    0 ≤ index_inverse (Int.tmod (x + m.rotor_offsets rotor) ALPHABET_SIZE) rotor ∧
    index_inverse (Int.tmod (x + m.rotor_offsets rotor) ALPHABET_SIZE) rotor < 26 := by
  rw [tmod_alphabet _ (by omega)]
  have h := rotors_inverse rotor ((x + m.rotor_offsets rotor) % 26) (by omega)
  exact ⟨h.1, h.2.1⟩

theorem encrypt_char_total_letter (m : Machine) (c : Int) (ho : offsets_in_range m)
    (hp : plug_in_range m) (hc : isalpha c = true) :
    ∃ y : Int, (0 ≤ y ∧ y < 26) ∧
      encrypt_char m c = some (index_to_char y, spin_rotors m) := by
  obtain ⟨hx, _⟩ := letter_index c hc
  obtain ⟨p, a, b, d, u, y, _, _, _, _, _, _, _, _, hy, hpath⟩ :=
    signal_path_trace (spin_rotors m) (spin_rotors_in_range m ho)
      (plug_in_range_congr m _ (spin_rotors_pairings m).symm hp) _ hx
  refine ⟨y, ⟨hy.2.1, hy.2.2⟩, ?_⟩
  rw [encrypt_char_alpha m c hc, hpath]
  rfl

/-- C19. The signal path at fixed offsets is an involution: offsets in [0,26)
and a symmetric plugboard. The index map encrypt_char applies after stepping
(plug_swap, rotor_r_to_l through rotors 0,1,2, reflect, rotor_l_to_r through
rotors 2,1,0, plug_swap) returns its input when applied twice at the same
offsets; and encrypt_char run again on its own output from the identical
pre-call state (offsets, step counter, plugboard) returns the upper-cased
original letter. -/
theorem signal_path_is_involution (m : Machine) (ho : offsets_in_range m)
    (hp : plug_symmetric m) :
    (∀ x : Int, 0 ≤ x → x < 26 → (signal_path m x).bind (signal_path m) = some x) ∧
    (∀ c : Int, isalpha c = true →
      encrypt_char m c = (signal_path (spin_rotors m) (char_to_index (toupper c))).map
        (fun r => (index_to_char r, spin_rotors m))) ∧
    (∀ c : Int, isalpha c = true →
      ∃ d m1, encrypt_char m c = some (d, m1) ∧
        ∃ m2, encrypt_char m d = some (toupper c, m2)) := by
  refine ⟨?_, fun c hc => encrypt_char_alpha m c hc, ?_⟩
  · intro x h0 h26
    obtain ⟨y, hy, _, _, hback⟩ := signal_path_involution m ho hp x ⟨h0, h26⟩
    rw [hy, Option.some_bind, hback]
  · intro c hc
    obtain ⟨y, hy, henc, hback⟩ := encrypt_char_letter m c ho hp hc
    obtain ⟨_, hdalpha, _, hdidx⟩ := index_letter y hy
    refine ⟨index_to_char y, spin_rotors m, henc, spin_rotors m, ?_⟩
    rw [encrypt_char_of_path m _ (char_to_index (toupper c)) hdalpha
      (by rw [hdidx]; exact hback), (letter_index c hc).2]

/-- C19 at a concrete input: offsets (3,7,11), step counter 25, empty
plugboard. -/
theorem signal_path_is_involution_witness :
    (∀ x : Int, 0 ≤ x → x < 26 →
      (signal_path (machine_at 3 7 11 25) x).bind (signal_path (machine_at 3 7 11 25))
        = some x) ∧
    (∀ c : Int, isalpha c = true →
      encrypt_char (machine_at 3 7 11 25) c
        = (signal_path (spin_rotors (machine_at 3 7 11 25)) (char_to_index (toupper c))).map
            (fun r => (index_to_char r, spin_rotors (machine_at 3 7 11 25)))) ∧
    (∀ c : Int, isalpha c = true →
      ∃ d m1, encrypt_char (machine_at 3 7 11 25) c = some (d, m1) ∧
        ∃ m2, encrypt_char (machine_at 3 7 11 25) d = some (toupper c, m2)) :=
  signal_path_is_involution (machine_at 3 7 11 25) (by decide)
    (plug_symmetric_of_empty _ rfl)

/-- C20. encrypt_char is total on letters and returns an uppercase letter:
offsets in [0,26), any step counter, the plugboard left by initialize_plugboard
on any text, and a letter c. The index after each plug_swap, rotor_r_to_l,
reflect and rotor_l_to_r lies in [0,26), no lookup of index_inverse gives -1,
and the character returned is in 'A'..'Z'. -/
theorem encrypt_char_total (m0 : Machine) (text : List Int) (c : Int)
    (ho : offsets_in_range m0) (hc : isalpha c = true) :
    ∃ ms : Machine, ms = spin_rotors (initialize_plugboard m0 text) ∧
    ∃ p a b d u y : Int,
      (0 ≤ char_to_index (toupper c) ∧ char_to_index (toupper c) < 26) ∧
      (plug_swap ms (char_to_index (toupper c)) = some p ∧ 0 ≤ p ∧ p < 26) ∧
      (rotor_r_to_l ms p 0 = some a ∧ 0 ≤ a ∧ a < 26) ∧
      (rotor_r_to_l ms a 1 = some b ∧ 0 ≤ b ∧ b < 26) ∧
      (rotor_r_to_l ms b 2 = some d ∧ 0 ≤ d ∧ d < 26) ∧
      (reflect d = some u ∧ 0 ≤ u ∧ u < 26) ∧
      (index_inverse (Int.tmod (u + ms.rotor_offsets 2) ALPHABET_SIZE) 2 ≠ -1 ∧
        0 ≤ rotor_l_to_r ms u 2 ∧ rotor_l_to_r ms u 2 < 26) ∧
      (index_inverse
          (Int.tmod (rotor_l_to_r ms u 2 + ms.rotor_offsets 1) ALPHABET_SIZE) 1 ≠ -1 ∧
        0 ≤ rotor_l_to_r ms (rotor_l_to_r ms u 2) 1 ∧
        rotor_l_to_r ms (rotor_l_to_r ms u 2) 1 < 26) ∧
      (index_inverse
          (Int.tmod (rotor_l_to_r ms (rotor_l_to_r ms u 2) 1 + ms.rotor_offsets 0)
            ALPHABET_SIZE) 0 ≠ -1 ∧
        0 ≤ rotor_l_to_r ms (rotor_l_to_r ms (rotor_l_to_r ms u 2) 1) 0 ∧
        rotor_l_to_r ms (rotor_l_to_r ms (rotor_l_to_r ms u 2) 1) 0 < 26) ∧
      (plug_swap ms (rotor_l_to_r ms (rotor_l_to_r ms (rotor_l_to_r ms u 2) 1) 0) = some y ∧
        0 ≤ y ∧ y < 26) ∧
      encrypt_char (initialize_plugboard m0 text) c = some (index_to_char y, ms) ∧
      65 ≤ index_to_char y ∧ index_to_char y ≤ 90 := by
  have ho1 : offsets_in_range (initialize_plugboard m0 text) := fun r => ho r
  have hos := spin_rotors_in_range _ ho1
  have hps : plug_in_range (spin_rotors (initialize_plugboard m0 text)) :=
    plug_in_range_congr _ _ (spin_rotors_pairings _).symm
      (initialize_plugboard_in_range m0 text)
  obtain ⟨hx, _⟩ := letter_index c hc
  obtain ⟨p, a, b, d, u, y, hp, ha, hb, hd, hu, r2, r1, r0, hy, hpath⟩ :=
    signal_path_trace _ hos hps _ hx
  have l2 := rotor_l_to_r_lookup _ 2 u (hos 2) ⟨hu.2.1, hu.2.2⟩
  have l1 := rotor_l_to_r_lookup _ 1 _ (hos 1) r2
  have l0 := rotor_l_to_r_lookup _ 0 _ (hos 0) r1
  have hy65 := (index_letter y ⟨hy.2.1, hy.2.2⟩).1
  refine ⟨_, rfl, p, a, b, d, u, y, hx, hp, ha, hb, hd, hu, ⟨by omega, r2⟩, ⟨by omega, r1⟩,
    ⟨by omega, r0⟩, hy, ?_, by omega, by omega⟩
  rw [encrypt_char_alpha _ c hc, hpath]
  rfl

/-- C20 at a concrete input: offsets (3,7,11), step counter 25, the plugboard
left by the text "A BA C" (not symmetric), letter 'b'. -/
theorem encrypt_char_total_witness :
    ∃ ms : Machine,
      ms = spin_rotors (initialize_plugboard (machine_at 3 7 11 25) (c_str "A BA C")) ∧
    ∃ p a b d u y : Int,
      (0 ≤ char_to_index (toupper 98) ∧ char_to_index (toupper 98) < 26) ∧
      (plug_swap ms (char_to_index (toupper 98)) = some p ∧ 0 ≤ p ∧ p < 26) ∧
      (rotor_r_to_l ms p 0 = some a ∧ 0 ≤ a ∧ a < 26) ∧
      (rotor_r_to_l ms a 1 = some b ∧ 0 ≤ b ∧ b < 26) ∧
      (rotor_r_to_l ms b 2 = some d ∧ 0 ≤ d ∧ d < 26) ∧
      (reflect d = some u ∧ 0 ≤ u ∧ u < 26) ∧
      (index_inverse (Int.tmod (u + ms.rotor_offsets 2) ALPHABET_SIZE) 2 ≠ -1 ∧
        0 ≤ rotor_l_to_r ms u 2 ∧ rotor_l_to_r ms u 2 < 26) ∧
      (index_inverse
          (Int.tmod (rotor_l_to_r ms u 2 + ms.rotor_offsets 1) ALPHABET_SIZE) 1 ≠ -1 ∧
        0 ≤ rotor_l_to_r ms (rotor_l_to_r ms u 2) 1 ∧
        rotor_l_to_r ms (rotor_l_to_r ms u 2) 1 < 26) ∧
      (index_inverse
          (Int.tmod (rotor_l_to_r ms (rotor_l_to_r ms u 2) 1 + ms.rotor_offsets 0)
            ALPHABET_SIZE) 0 ≠ -1 ∧
        0 ≤ rotor_l_to_r ms (rotor_l_to_r ms (rotor_l_to_r ms u 2) 1) 0 ∧
        rotor_l_to_r ms (rotor_l_to_r ms (rotor_l_to_r ms u 2) 1) 0 < 26) ∧
      (plug_swap ms (rotor_l_to_r ms (rotor_l_to_r ms (rotor_l_to_r ms u 2) 1) 0) = some y ∧
        0 ≤ y ∧ y < 26) ∧
      encrypt_char (initialize_plugboard (machine_at 3 7 11 25) (c_str "A BA C")) 98
        = some (index_to_char y, ms) ∧
      65 ≤ index_to_char y ∧ index_to_char y ≤ 90 :=
  encrypt_char_total (machine_at 3 7 11 25) (c_str "A BA C") 98 (by decide) (by decide)

/-! ## Messages -/

theorem spin_rotors_iterate_left (m : Machine) (n : Nat) :
    (spin_rotors^[n] m).rotor_offsets 2 = m.rotor_offsets 2 := by
  induction n with
  | zero => rfl
  | succ n ih => rw [Function.iterate_succ_apply', spin_rotors_left, ih]

theorem spin_rotors_iterate_pairings (m : Machine) (n : Nat) :
    (spin_rotors^[n] m).pairings = m.pairings := by
  induction n with
  | zero => rfl
  | succ n ih => rw [Function.iterate_succ_apply', spin_rotors_pairings, ih]

theorem signal_path_of_state (m : Machine) (r mid l : Int) (h0 : m.rotor_offsets 0 = r)
    (h1 : m.rotor_offsets 1 = mid) (h2 : m.rotor_offsets 2 = l)
    (hp : m.pairings = fun _ => 0) :
    signal_path m = signal_path (machine_at r mid l 0) := by
  apply signal_path_congr
  · funext i
    fin_cases i
    · exact h0
    · exact h1
    · exact h2
  · exact hp

/-- The letters of an encrypted letters-only message, one by one: letter `j`
goes through the signal path of the machine after `j + 1` steps. -/
theorem encrypt_message_letter_at (msg : List Int) :
    ∀ (a : Machine) (ra : List (Int × List Int)) (ct : List Int) (a1 : Machine),
      offsets_in_range a → plug_in_range a → (∀ c ∈ msg, isalpha c = true) →
      encrypt_message a msg ra = some (ct, a1) →
      a1 = spin_rotors^[msg.length] a ∧ ct.length = msg.length ∧
      (∀ c ∈ ct, isalpha c = true) ∧
      ∀ j : Nat, j < msg.length →
        ∃ y : Int, signal_path (spin_rotors^[j + 1] a)
            (char_to_index (toupper (msg.getD j 0))) = some y ∧
          ct.getD j 0 = index_to_char y := by
  induction msg with
  | nil =>
    intro a ra ct a1 _ _ _ h
    simp only [encrypt_message, Option.some.injEq, Prod.mk.injEq] at h
    refine ⟨h.2.symm, by rw [← h.1], by rw [← h.1]; simp, ?_⟩
    intro j hj
    simp at hj
  | cons c rest ih =>
    intro a ra ct a1 ho hp hl h
    have hc : isalpha c = true := hl c (List.mem_cons_self _ _)
    obtain ⟨y0, hy0, henc⟩ := encrypt_char_total_letter a c ho hp hc
    have hpath : signal_path (spin_rotors a) (char_to_index (toupper c)) = some y0 := by
      have e := encrypt_char_alpha a c hc
      rw [henc] at e
      cases hs : signal_path (spin_rotors a) (char_to_index (toupper c)) with
      | none => rw [hs] at e; cases e
      | some y =>
        rw [hs, Option.map_some'] at e
        have e1 : index_to_char y0 = index_to_char y := congrArg Prod.fst (Option.some.inj e)
        obtain ⟨_, _, _, _, _, y', _, _, _, _, _, _, _, _, hy', hp'⟩ :=
          signal_path_trace (spin_rotors a) (spin_rotors_in_range a ho)
            (plug_in_range_congr a _ (spin_rotors_pairings a).symm hp) _ (letter_index c hc).1
        rw [hs] at hp'
        have hyy : y = y' := Option.some.inj hp'
        have i0 := (index_letter y0 hy0).1
        have i1 := (index_letter y ⟨by rw [hyy]; exact hy'.2.1, by rw [hyy]; exact hy'.2.2⟩).1
        rw [i0, i1] at e1
        have : y0 = y := by omega
        rw [this]
    rw [encrypt_message_letter_cons a c rest ra hc, henc, Option.some_bind] at h
    cases hr : encrypt_message (spin_rotors a) rest ra with
    | none => rw [hr] at h; cases h
    | some q =>
      obtain ⟨ct1, a2⟩ := q
      rw [hr, Option.map_some'] at h
      have hct : index_to_char y0 :: ct1 = ct := congrArg Prod.fst (Option.some.inj h)
      have ha : a2 = a1 := congrArg Prod.snd (Option.some.inj h)
      obtain ⟨hfin, hlen, hlet, hat⟩ :=
        ih (spin_rotors a) ra ct1 a2 (spin_rotors_in_range a ho)
          (plug_in_range_congr a _ (spin_rotors_pairings a).symm hp)
          (fun c' hc' => hl c' (List.mem_cons_of_mem _ hc')) hr
      refine ⟨?_, ?_, ?_, ?_⟩
      · rw [← ha, hfin, List.length_cons, Function.iterate_succ_apply]
      · rw [← hct, List.length_cons, List.length_cons, hlen]
      · intro d hd
        rw [← hct] at hd
        rcases List.mem_cons.mp hd with hd | hd
        · rw [hd]; exact (index_letter y0 hy0).2.1
        · exact hlet d hd
      · intro j hj
        cases j with
        | zero => exact ⟨y0, hpath, by rw [← hct]; rfl⟩
        | succ j =>
          obtain ⟨y, hy, hcy⟩ := hat j (by simp only [List.length_cons] at hj; omega)
          refine ⟨y, ?_, ?_⟩
          · rw [Function.iterate_succ_apply, List.getD_cons_succ]
            exact hy
          · rw [← hct, List.getD_cons_succ]
            exact hcy

/-- The bound on the multiples of 26 in C3 is needed. A message of 1073741838
letters 'A' (a multiple of 26, more than INT_MAX / 2) from positions A A A with
the empty plugboard: the second pass wraps the 32-bit counter before its
letter 1073741811 and has turned the middle rotor once less by then; that
letter goes out as 'S' and comes back as 'F'. -/
theorem message_round_trip_needs_bound :
    ¬ ∀ (m0 : Machine) (l mi r : Int) (msg : List Int) (ra rb : List (Int × List Int)),
        m0.right_rotor_steps = 0 → isalpha l = true → isalpha mi = true →
        isalpha r = true → plug_symmetric m0 → (∀ c ∈ msg, isalpha c = true) →
        (msg.length < 13 ∨ 26 ∣ msg.length) →
        ∃ ct m1, encrypt_message (set_rotor_positions m0 l mi r) msg ra = some (ct, m1) ∧
          ∃ m2, encrypt_message (set_rotor_positions m1 l mi r) ct rb
            = some (msg.map toupper, m2) := by
  intro h
  have hlet : ∀ c ∈ List.replicate 1073741838 (65 : Int), isalpha c = true := by
    intro c hc
    rw [List.eq_of_mem_replicate hc]
    decide
  obtain ⟨ct, m1, h1, m2, h2⟩ :=
    h Machine.init 65 65 65 (List.replicate 1073741838 65) [] [] rfl (by decide) (by decide)
      (by decide) (plug_symmetric_of_empty _ rfl) hlet
      (Or.inr (by rw [List.length_replicate]; decide))
  -- first pass
  have hoa : offsets_in_range (set_rotor_positions Machine.init 65 65 65) :=
    set_rotor_positions_in_range _ 65 65 65 (by decide) (by decide) (by decide)
  have hpa : plug_in_range (set_rotor_positions Machine.init 65 65 65) :=
    plug_in_range_of_symmetric _ (plug_symmetric_of_empty _ rfl)
  obtain ⟨hm1, hlen1, hlet1, hat1⟩ :=
    encrypt_message_letter_at _ _ [] ct m1 hoa hpa hlet h1
  rw [List.length_replicate] at hm1 hlen1 hat1
  have ha0 : (set_rotor_positions Machine.init 65 65 65).rotor_offsets 0 = 0 := by decide
  have ha1 : (set_rotor_positions Machine.init 65 65 65).rotor_offsets 1 = 0 := by decide
  have ha2 : (set_rotor_positions Machine.init 65 65 65).rotor_offsets 2 = 0 := by decide
  have has : (set_rotor_positions Machine.init 65 65 65).right_rotor_steps = 0 := rfl
  have hap : (set_rotor_positions Machine.init 65 65 65).pairings = fun _ => 0 := rfl
  -- the machine between the passes
  have hm1s : m1.right_rotor_steps = 1073741838 := by
    rw [hm1, (spin_rotors_iterate _ (by rw [ha1]; decide) 1073741838
      (by rw [has]; decide)).1, has]
    decide
  have hm1p : m1.pairings = fun _ => 0 := by
    rw [hm1, spin_rotors_iterate_pairings, hap]
  -- second pass
  have hob : offsets_in_range (set_rotor_positions m1 65 65 65) :=
    set_rotor_positions_in_range _ 65 65 65 (by decide) (by decide) (by decide)
  have hpb : plug_in_range (set_rotor_positions m1 65 65 65) :=
    plug_in_range_of_symmetric _ (plug_symmetric_of_empty _ hm1p)
  obtain ⟨_, _, _, hat2⟩ :=
    encrypt_message_letter_at _ _ [] _ m2 hob hpb hlet1 h2
  rw [hlen1] at hat2
  have hb0 : (set_rotor_positions m1 65 65 65).rotor_offsets 0 = 0 := by
    rw [set_rotor_positions_offsets]; decide
  have hb1 : (set_rotor_positions m1 65 65 65).rotor_offsets 1 = 0 := by
    rw [set_rotor_positions_offsets]; decide
  have hb2 : (set_rotor_positions m1 65 65 65).rotor_offsets 2 = 0 := by
    rw [set_rotor_positions_offsets]; decide
  have hbs : (set_rotor_positions m1 65 65 65).right_rotor_steps = 1073741838 := hm1s
  have hbp : (set_rotor_positions m1 65 65 65).pairings = fun _ => 0 := hm1p
  -- letter 1073741811 of the first pass: offsets (0, 24, 0)
  obtain ⟨y1, hy1, hc1⟩ := hat1 1073741811 (by decide)
  have hmid1 : (spin_rotors^[1073741811 + 1]
      (set_rotor_positions Machine.init 65 65 65)).rotor_offsets 1 = 24 := by
    rw [(spin_rotors_iterate _ (by rw [ha1]; decide) (1073741811 + 1)
      (by rw [has]; decide)).2, ha1, has]
    decide
  have hright1 : (spin_rotors^[1073741811 + 1]
      (set_rotor_positions Machine.init 65 65 65)).rotor_offsets 0 = 0 := by
    rw [spin_rotors_iterate_right _ (by rw [ha0]; decide), ha0]
    decide
  rw [signal_path_of_state _ 0 24 0 hright1 hmid1
    (by rw [spin_rotors_iterate_left, ha2])
    (by rw [spin_rotors_iterate_pairings, hap])] at hy1
  have hA : (List.replicate 1073741838 (65 : Int)).getD 1073741811 0 = 65 := by
    rw [List.getD_eq_getElem _ _ (by rw [List.length_replicate]; decide),
      List.getElem_replicate]
  rw [hA] at hy1
  have hv1 : signal_path (machine_at 0 24 0 0) (char_to_index (toupper 65)) = some 18 := by
    decide
  rw [hv1] at hy1
  rw [← Option.some.inj hy1] at hc1
  -- letter 1073741811 of the second pass: offsets (0, 22, 0)
  obtain ⟨y2, hy2, hc2⟩ := hat2 1073741811 (by decide)
  have hseg : spin_rotors^[1073741811 + 1] (set_rotor_positions m1 65 65 65)
      = spin_rotors^[2] (spin_rotors
          (spin_rotors^[1073741809] (set_rotor_positions m1 65 65 65))) := by
    rw [← Function.iterate_succ_apply' spin_rotors, ← Function.iterate_add_apply]
  have hs1 := spin_rotors_iterate (set_rotor_positions m1 65 65 65) (by rw [hb1]; decide)
    1073741809 (by rw [hbs]; decide)
  rw [hb1, hbs] at hs1
  have hs1c : (spin_rotors^[1073741809] (set_rotor_positions m1 65 65 65)).right_rotor_steps
      = 2147483647 := by rw [hs1.1]; decide
  have hs1m : (spin_rotors^[1073741809] (set_rotor_positions m1 65 65 65)).rotor_offsets 1
      = 22 := by rw [hs1.2]; decide
  have hs2c : (spin_rotors
      (spin_rotors^[1073741809] (set_rotor_positions m1 65 65 65))).right_rotor_steps
      = -2147483648 := by rw [spin_rotors_steps, hs1c]; decide
  have hs2m : (spin_rotors
      (spin_rotors^[1073741809] (set_rotor_positions m1 65 65 65))).rotor_offsets 1
      = 22 := by
    rw [spin_rotors_middle, hs1c, hs1m, if_neg (by decide)]
  have hmid2 : (spin_rotors^[1073741811 + 1]
      (set_rotor_positions m1 65 65 65)).rotor_offsets 1 = 22 := by
    rw [hseg, (spin_rotors_iterate _ (by rw [hs2m]; decide) 2
      (by rw [hs2c]; decide)).2, hs2m, hs2c]
    decide
  have hright2 : (spin_rotors^[1073741811 + 1]
      (set_rotor_positions m1 65 65 65)).rotor_offsets 0 = 0 := by
    rw [spin_rotors_iterate_right _ (by rw [hb0]; decide), hb0]
    decide
  rw [signal_path_of_state _ 0 22 0 hright2 hmid2
    (by rw [spin_rotors_iterate_left, hb2])
    (by rw [spin_rotors_iterate_pairings, hbp]), hc1] at hy2
  have hv2 : signal_path (machine_at 0 22 0 0)
      (char_to_index (toupper (index_to_char 18))) = some 5 := by decide
  rw [hv2] at hy2
  rw [← Option.some.inj hy2, List.map_replicate,
    List.getD_eq_getElem _ _ (by rw [List.length_replicate]; decide),
    List.getElem_replicate] at hc2
  revert hc2
  decide

end Enigma
